import Mathlib

/-!
Verification development for the dry_torch training library.

The definitions below are shallow embeddings of the Python sources:

* `src/dry_torch/structures.py`   — `TorchAggregate`, `DictList`
* `src/dry_torch/recursive_ops.py`— `recursive_apply`
* `src/dry_torch/training.py`     — `LogMetrics.log_train`, `Trainer.train`,
  `Trainer._run_epoch`, `Trainer.terminate_training`, `Test.__call__`
* the binding registry used by `model_utils.bind_to_model` (that module is
  not part of the sources; it is modelled from the specification)

Python floats are modelled by exact rationals (`ℚ`), machine integers by `ℕ`.
A batched 1-d tensor of metric values is a `List ℚ`; `numel` is its length and
`sum(0).item()` its rational sum.
-/

namespace DryTorch

/-! ## Tensors and metric batches -/

/-- A batched one-dimensional tensor of metric values (`torch.Tensor`),
modelled with exact rational entries. -/
abbrev Tensor := List ℚ

/-- Model of `value.sum(0).item()` for a batched 1-d tensor. -/
def tensorSum (t : Tensor) : ℚ := t.sum

/-- Model of `value.numel()` (`TorchAggregate._count`). -/
def numel (t : Tensor) : ℕ := t.length

/-- Model of `TorchAggregate._format_key`:
`key[0].upper() + key[1:]` (first character upper-cased, rest untouched). -/
def formatKey (k : String) : String :=
  match k.data with
  | [] => ""
  | c :: cs => String.mk (c.toUpper :: cs)

/-- A metrics mapping handed to the aggregate (the `Mapping[str, Tensor]`
returned by a metrics calculator for one batch), as an association list. -/
abbrev Batch := List (String × Tensor)

/-- The formatted key of each entry of a batch, in order. -/
def batchKeys (b : Batch) : List String := b.map fun kv => formatKey kv.1

/-! ## TorchAggregate (`structures.py`, lines 16-80)

The Python object stores two `defaultdict`s with identical key sets
(`aggregate : str → float` with default `0.0`, `counts : str → int` with
default `0`).  We model the pair of dictionaries as the list of keys in
insertion order together with total lookup functions that return the
default outside the stored keys. -/

structure TorchAggregate where
  keys : List String
  aggregate : String → ℚ
  counts : String → ℕ

/-- The freshly constructed `TorchAggregate()`. -/
def TorchAggregate.empty : TorchAggregate :=
  ⟨[], fun _ => 0, fun _ => 0⟩

/-- Model of `TorchAggregate.__setitem__`: format the key, then store the
batch sum in `aggregate` and the element count in `counts` (replacing any
previous value; a new key is appended at the end of the dict order). -/
def TorchAggregate.setItem (a : TorchAggregate) (key : String) (v : Tensor) :
    TorchAggregate :=
  { keys :=
      if formatKey key ∈ a.keys then a.keys else a.keys ++ [formatKey key]
    aggregate := fun x =>
      if x = formatKey key then tensorSum v else a.aggregate x
    counts := fun x => if x = formatKey key then numel v else a.counts x }

/-- The loop of `TorchAggregate.__init__`: one `__setitem__` per entry of
the iterable, in order. -/
def TorchAggregate.setItems (a : TorchAggregate) (b : Batch) :
    TorchAggregate :=
  b.foldl (fun acc kv => acc.setItem kv.1 kv.2) a

/-- Model of `TorchAggregate.__init__(**mapping)`. -/
def TorchAggregate.ofBatch (b : Batch) : TorchAggregate :=
  TorchAggregate.empty.setItems b

/-- Model of `TorchAggregate.__iadd__` (and `__add__`, which copies and then
delegates to `__iadd__`): for every key of `other`, add its sum and count
into `self` (a missing key is created with the defaults `0`); keys of
`other` unseen by `self` are appended in `other`'s order. -/
def TorchAggregate.iadd (a b : TorchAggregate) : TorchAggregate :=
  { keys := a.keys ++ b.keys.filter (fun k => !(decide (k ∈ a.keys)))
    aggregate := fun x =>
      if x ∈ b.keys then a.aggregate x + b.aggregate x else a.aggregate x
    counts := fun x =>
      if x ∈ b.keys then a.counts x + b.counts x else a.counts x }

/-- Helper for `reduce`: the dict comprehension
`{key: value / counts[key] for key, value in aggregate.items()}`,
which raises `ZeroDivisionError` at the first key whose count is `0`. -/
def reduceGo (agg : String → ℚ) (counts : String → ℕ) :
    List String → Except Unit (List (String × ℚ))
  | [] => .ok []
  | k :: ks =>
    if counts k = 0 then .error ()
    else
      match reduceGo agg counts ks with
      | .error e => .error e
      | .ok rest => .ok ((k, agg k / (counts k : ℚ)) :: rest)

/-- Model of `TorchAggregate.reduce`; `Except.error ()` is Python's
`ZeroDivisionError`. -/
def TorchAggregate.reduce (a : TorchAggregate) :
    Except Unit (List (String × ℚ)) :=
  reduceGo a.aggregate a.counts a.keys

/-- Model of `TorchAggregate.__eq__`: both dictionaries compare equal as
Python dicts, i.e. same key sets and equal values key-for-key (insertion
order is irrelevant for dict equality). -/
def TorchAggregate.eqb (a b : TorchAggregate) : Bool :=
  (a.keys.all fun k => decide (k ∈ b.keys)) &&
  (b.keys.all fun k => decide (k ∈ a.keys)) &&
  (a.keys.all fun k =>
    decide (a.aggregate k = b.aggregate k) && decide (a.counts k = b.counts k))

/-- Representation invariant of the embedding: dict keys are unique and both
lookup functions return the `defaultdict` default outside the stored keys. -/
def AggInv (a : TorchAggregate) : Prop :=
  a.keys.Nodup ∧ ∀ k, k ∉ a.keys → a.aggregate k = 0 ∧ a.counts k = 0

/-- The accumulation loop of `Test.__call__` / `Trainer._run_epoch`:
`metrics = TorchAggregate()` followed by `metrics += mapping` per batch. -/
def mergeAll (bs : List Batch) : TorchAggregate :=
  bs.foldl (fun acc b => acc.iadd (TorchAggregate.ofBatch b))
    TorchAggregate.empty

/-- Merging a list of already-built aggregates with `+` in list order. -/
def mergeList (l : List TorchAggregate) : TorchAggregate :=
  l.foldl TorchAggregate.iadd TorchAggregate.empty

/-! Specification-side construction of "one aggregator updated on the whole
sequence": concatenate, per formatted metric name, the tensors of all
sub-batches (in order of first appearance), then build a single aggregate
from the joined mapping. -/

/-- Append tensor `t` to the entry of `k` in the joined mapping, creating the
entry at the end if `k` is new. -/
def insertVal (j : Batch) (k : String) (t : Tensor) : Batch :=
  if k ∈ j.map Prod.fst then
    j.map fun kv => if kv.1 = k then (kv.1, kv.2 ++ t) else kv
  else j ++ [(k, t)]

/-- Join one sub-batch into the accumulated whole-sequence mapping. -/
def joinInto (j : Batch) (b : Batch) : Batch :=
  b.foldl (fun acc kv => insertVal acc (formatKey kv.1) kv.2) j

/-- The whole sequence of metric values described by a list of sub-batches:
per formatted key, the concatenation of all tensors recorded for it. -/
def joinBatches (bs : List Batch) : Batch := bs.foldl joinInto []

/-- Generic per-key reduction of a joined mapping: the sum of `g` over the
tensors stored under key `x` (the keys of a joined mapping are already
formatted). -/
def jAgg {M : Type} [AddCommMonoid M] (g : Tensor → M) (j : Batch)
    (x : String) : M :=
  ((j.filter fun kv => kv.1 == x).map fun kv => g kv.2).sum

/-- Generic per-key reduction of a raw sub-batch: the sum of `g` over the
tensors recorded under formatted key `x`. -/
def bAgg {M : Type} [AddCommMonoid M] (g : Tensor → M) (b : Batch)
    (x : String) : M :=
  ((b.filter fun kv => formatKey kv.1 == x).map fun kv => g kv.2).sum

/-- Pointwise equivalence of two aggregates: the same key sets and the same
sums and counts everywhere.  For aggregates satisfying `AggInv` this is
exactly Python's `==` on the two dictionary pairs. -/
def AggEquiv (a b : TorchAggregate) : Prop :=
  (∀ k, k ∈ a.keys ↔ k ∈ b.keys) ∧ (∀ k, a.aggregate k = b.aggregate k) ∧
  (∀ k, a.counts k = b.counts k)

/-- Relation between the merged aggregate and the joined whole-sequence
mapping maintained while folding over the sub-batches: same keys in the
same order, the same sums and counts per key, unique and already formatted
keys. -/
def PairInv (A : TorchAggregate) (j : Batch) : Prop :=
  A.keys = j.map Prod.fst ∧
  (∀ x, A.aggregate x = jAgg tensorSum j x) ∧
  (∀ x, A.counts x = jAgg numel j x) ∧
  (j.map Prod.fst).Nodup ∧ (∀ kv ∈ j, formatKey kv.1 = kv.1)

/-! ## DictList (`structures.py`, lines 83-332)

The list stores, for a fixed key tuple, one value tuple per element.  A
Python input dictionary is an association list with unique keys. -/

/-- Error raised by the mutating `DictList` operations:
`KeysAlreadySetError` from `set_keys`, or Python's `IndexError` from the
underlying list. -/
inductive DLError where
  | keysAlreadySet
  | indexOutOfRange
  deriving DecidableEq

/-- A Python dictionary argument, as an association list with unique keys. -/
abbrev Dict (V : Type) := List (String × V)

/-- The key view of a dictionary. -/
def dictKeys {V : Type} (d : Dict V) : List String := d.map Prod.fst

/-- Python dict lookup `d[k]` (first matching entry). -/
def dictLookup {V : Type} (d : Dict V) (k : String) : Option V :=
  (d.find? fun kv => kv.1 == k).map Prod.snd

/-- Model of `set(self._keys) == set(input_dict.keys())`. -/
def keySetEqb {V : Type} (ks : List String) (d : Dict V) : Bool :=
  (ks.all fun k => decide (k ∈ dictKeys d)) &&
  ((dictKeys d).all fun k => decide (k ∈ ks))

structure DictList (V : Type) where
  keys : List String
  tupleList : List (List V)
  deriving DecidableEq

/-- The freshly constructed `DictList()`. -/
def DictList.empty {V : Type} : DictList V := ⟨[], []⟩

/-- Model of `DictList._validate_dict` (including the `set_keys` side
effect): if the key sets agree, return the stored keys and the values in
stored-key order; otherwise set the keys when none are set yet, or raise
`KeysAlreadySetError`.  Returns the (possibly newly set) keys together with
the value tuple. -/
def validateDict {V : Type} [Inhabited V] (keys : List String) (d : Dict V) :
    Except DLError (List String × List V) :=
  if keySetEqb keys d then
    .ok (keys, keys.map fun k => (dictLookup d k).getD default)
  else if keys.isEmpty then
    .ok (dictKeys d, (dictKeys d).map fun k => (dictLookup d k).getD default)
  else
    .error .keysAlreadySet

/-- Model of `DictList.append`: validate, then append the value tuple.  The
pair returned by each mutating operation is the raised error (if any)
together with the state of the object afterwards. -/
def DictList.appendD {V : Type} [Inhabited V] (dl : DictList V) (d : Dict V) :
    Option DLError × DictList V :=
  match validateDict dl.keys d with
  | .error e => (some e, dl)
  | .ok (ks, vals) => (none, ⟨ks, dl.tupleList ++ [vals]⟩)

/-- Model of `DictList.insert` (Python `list.insert` clamps the index). -/
def DictList.insertD {V : Type} [Inhabited V] (dl : DictList V) (i : ℕ)
    (d : Dict V) : Option DLError × DictList V :=
  match validateDict dl.keys d with
  | .error e => (some e, dl)
  | .ok (ks, vals) =>
    (none, ⟨ks, dl.tupleList.take i ++ [vals] ++ dl.tupleList.drop i⟩)

/-- Model of `DictList.__setitem__` with a single index and a dictionary
value: the input is validated (possibly setting the keys) before the
assignment, and the assignment itself raises `IndexError` out of range. -/
def DictList.setItemD {V : Type} [Inhabited V] (dl : DictList V) (i : ℕ)
    (d : Dict V) : Option DLError × DictList V :=
  match validateDict dl.keys d with
  | .error e => (some e, dl)
  | .ok (ks, vals) =>
    if i < dl.tupleList.length then (none, ⟨ks, dl.tupleList.set i vals⟩)
    else (some .indexOutOfRange, ⟨ks, dl.tupleList⟩)

/-- Model of `DictList.extend` on a generic iterable of dictionaries:
`list.extend(map(validate, iterable))` validates lazily, appending each
validated tuple before the next dictionary is examined, so an error leaves
the previously validated prefix appended. -/
def DictList.extendD {V : Type} [Inhabited V] (dl : DictList V) :
    List (Dict V) → Option DLError × DictList V
  | [] => (none, dl)
  | d :: ds =>
    match validateDict dl.keys d with
    | .error e => (some e, dl)
    | .ok (ks, vals) => DictList.extendD ⟨ks, dl.tupleList ++ [vals]⟩ ds

/-- Well-formedness of a `DictList`: every stored tuple has one value per
key, and no element is stored before the keys are set. -/
def DictList.WF {V : Type} (dl : DictList V) : Prop :=
  (∀ row ∈ dl.tupleList, row.length = dl.keys.length) ∧
  (dl.keys = [] → dl.tupleList = [])

/-! ## recursive_apply (`recursive_ops.py`, lines 13-71)

A nested Python value is either an object of the expected leaf type, an
object of some other unsupported type, a mutable mapping, a mutable
sequence, a plain tuple, or a tuple subclass (`record`), whose constructor
either accepts the element sequence (`recon = true`, e.g. a namedtuple) or
raises `TypeError` (`recon = false`).  Mapping keys are arbitrary hashable
values; the implementation rebuilds a mapping through the keyword expansion
`mapping.update(**{...})`, which accepts only string keys and raises
Python's `TypeError` otherwise. -/

inductive ROError where
  /-- `exceptions.NamedTupleOnlyError` (the spec's `NotReconstructibleError`). -/
  | namedTupleOnly
  /-- `exceptions.FuncNotApplicableError` (the spec's `UnsupportedTypeError`). -/
  | funcNotApplicable
  /-- Python's built-in `TypeError`, raised by the keyword expansion
  `mapping.update(**{...})` when the mapping has a non-string key. -/
  | typeError
  deriving DecidableEq

/-- A hashable Python dictionary key: a string, or any other hashable value
(represented by a numeric tag), which keyword expansion rejects. -/
inductive PyKey where
  | str (s : String)
  | nonStr (n : ℕ)
  deriving DecidableEq

/-- Whether the key is a Python `str`. -/
def PyKey.isStr : PyKey → Bool
  | .str _ => true
  | .nonStr _ => false

inductive PyVal (T : Type) where
  | leaf (t : T)
  | other
  | mapping (entries : List (PyKey × PyVal T))
  | seq (items : List (PyVal T))
  | tup (items : List (PyVal T))
  | record (recon : Bool) (items : List (PyVal T))

mutual

/-- Model of `recursive_apply(obj, expected_type, func)`.  The branches are
checked in source order: expected leaf, mutable mapping, mutable sequence,
tuple.  A mapping is rebuilt with `mapping.update(**{key: ... for key,
item in obj.items()})`: the comprehension transforms the values in dict
order first (its errors propagate unchanged), then the `**` expansion
raises `TypeError` if any key is not a string.  A plain tuple is rebuilt
with `tuple(list(new))` inside `try ... except (TypeError, ValueError)`,
so a `TypeError` escaping from an element (a nested non-string-keyed
mapping) is converted to `FuncNotApplicableError`.  Any other tuple-like
class is rebuilt through its constructor inside `try ... except
TypeError`, whose arguments (a generator) are fully evaluated before the
constructor runs: a custom element error propagates before
`NamedTupleOnlyError` is decided, while an element `TypeError` is caught
by that handler and becomes `NamedTupleOnlyError`. -/
def recursiveApply {T : Type} (f : T → T) : PyVal T → Except ROError (PyVal T)
  | .leaf t => .ok (.leaf (f t))
  | .other => .error .funcNotApplicable
  | .mapping es =>
    match applyEntries f es with
    | .error e => .error e
    | .ok es2 =>
      if es.all (fun kv => kv.1.isStr) then .ok (.mapping es2)
      else .error .typeError
  | .seq items =>
    match applyItems f items with
    | .error e => .error e
    | .ok items2 => .ok (.seq items2)
  | .tup items =>
    match applyItems f items with
    | .error .typeError => .error .funcNotApplicable
    | .error e => .error e
    | .ok items2 => .ok (.tup items2)
  | .record recon items =>
    match applyItems f items with
    | .error .typeError => .error .namedTupleOnly
    | .error e => .error e
    | .ok items2 =>
      if recon then .ok (.record recon items2) else .error .namedTupleOnly

/-- The recursion of `recursive_apply` over the values of a mapping, in dict
order, propagating the first error. -/
def applyEntries {T : Type} (f : T → T) :
    List (PyKey × PyVal T) → Except ROError (List (PyKey × PyVal T))
  | [] => .ok []
  | (k, v) :: es =>
    match recursiveApply f v with
    | .error e => .error e
    | .ok v2 =>
      match applyEntries f es with
      | .error e => .error e
      | .ok es2 => .ok ((k, v2) :: es2)

/-- The recursion of `recursive_apply` over the items of a sequence or
tuple, in order, propagating the first error. -/
def applyItems {T : Type} (f : T → T) :
    List (PyVal T) → Except ROError (List (PyVal T))
  | [] => .ok []
  | v :: items =>
    match recursiveApply f v with
    | .error e => .error e
    | .ok v2 =>
      match applyItems f items with
      | .error e => .error e
      | .ok items2 => .ok (v2 :: items2)

end

mutual

/-- A value built only from supported containers (string-keyed mappings,
sequences, plain tuples, reconstructible records) and leaves of the
expected type. -/
def Supported {T : Type} : PyVal T → Bool
  | .leaf _ => true
  | .other => false
  | .mapping es => (es.all fun kv => kv.1.isStr) && supportedEntries es
  | .seq items => supportedItems items
  | .tup items => supportedItems items
  | .record recon items => recon && supportedItems items

/-- All mapping values are supported. -/
def supportedEntries {T : Type} : List (PyKey × PyVal T) → Bool
  | [] => true
  | (_, v) :: es => Supported v && supportedEntries es

/-- All sequence items are supported. -/
def supportedItems {T : Type} : List (PyVal T) → Bool
  | [] => true
  | v :: items => Supported v && supportedItems items

end

mutual

/-- Specification-side transform: the structurally equal copy in which every
leaf of the expected type is replaced by `func(leaf)`. -/
def mapLeaves {T : Type} (f : T → T) : PyVal T → PyVal T
  | .leaf t => .leaf (f t)
  | .other => .other
  | .mapping es => .mapping (mapLeavesEntries f es)
  | .seq items => .seq (mapLeavesItems f items)
  | .tup items => .tup (mapLeavesItems f items)
  | .record recon items => .record recon (mapLeavesItems f items)

/-- `mapLeaves` over mapping entries. -/
def mapLeavesEntries {T : Type} (f : T → T) :
    List (PyKey × PyVal T) → List (PyKey × PyVal T)
  | [] => []
  | (k, v) :: es => (k, mapLeaves f v) :: mapLeavesEntries f es

/-- `mapLeaves` over sequence items. -/
def mapLeavesItems {T : Type} (f : T → T) : List (PyVal T) → List (PyVal T)
  | [] => []
  | v :: items => mapLeaves f v :: mapLeavesItems f items

end

/-! ## Trainer and evaluation engine (`training.py`)

One training batch is characterised by the behaviour of its externally
computed loss: the value of the scalar criterion, and whether
`scaler.scale(criterion).backward()` raises `ValueError` on it.  The
optimizer step is an opaque update `step : P → P` of the parameters. -/

/-- The scalar criterion of one batch (`torch.isnan` / `torch.isinf`
distinguish the three non-finite cases from a finite value). -/
inductive Crit where
  | val (q : ℚ)
  | nan
  | posInf
  | negInf
  deriving DecidableEq

/-- Model of `torch.isinf(criterion) or torch.isnan(criterion)`. -/
def Crit.divergent : Crit → Bool
  | .val _ => false
  | _ => true

/-- The externally observable behaviour of one training batch. -/
structure BatchSpec where
  crit : Crit
  backwardValueError : Bool
  deriving DecidableEq

/-- An exception escaping `Trainer._run_epoch`. -/
inductive EpochError where
  /-- `exceptions.ConvergenceError(criterion.item())`. -/
  | convergence (c : Crit)
  /-- The re-raised `ValueError` from the backward pass. -/
  | valueError
  deriving DecidableEq

/-- An exception escaping `Trainer.train`. -/
inductive RunError where
  | valueError
  /-- `StopIteration` escaping from `train_logger.throw(ce)` when the
  logging generator is exhausted while handling a `ConvergenceError`. -/
  | stopIteration
  deriving DecidableEq

/-- The mutable state observed by `Trainer`: the model parameters, the
tracker's epoch counter, the termination flag, the module's train/eval mode,
and counters for the emitted log events. -/
structure TrainerState (P : Type) where
  params : P
  epoch : ℕ
  earlyTermination : Bool
  trainingMode : Bool
  convergenceErrorsLogged : ℕ
  warningsLogged : ℕ
  metricsEvents : ℕ
  deriving DecidableEq

/-- Model of the batch body of `Trainer._run_epoch` (lines 277-295): forward
pass and criterion are summarised by `b`; the backward pass either raises
`ValueError` — in which case `ConvergenceError` is raised when the criterion
is NaN or ±infinity and the `ValueError` is re-raised otherwise — or
succeeds, after which `scaler.step` performs the optimizer update. -/
def runBatch {P : Type} (step : P → P) (s : TrainerState P) (b : BatchSpec) :
    Option EpochError × TrainerState P :=
  if b.backwardValueError then
    if b.crit.divergent then (some (.convergence b.crit), s)
    else (some .valueError, s)
  else (none, { s with params := step s.params })

/-- The batch loop of `Trainer._run_epoch`: batches are consumed in loader
order until the first exception, which leaves the updates of the previous
batches in place. -/
def runBatches {P : Type} (step : P → P) (s : TrainerState P) :
    List BatchSpec → Option EpochError × TrainerState P
  | [] => (none, s)
  | b :: bs =>
    match runBatch step s b with
    | (some e, s1) => (some e, s1)
    | (none, s1) => runBatches step s1 bs

/-- Model of `Trainer._run_epoch`: set the module to eval mode (line 275),
run the batch loop, and on success emit one averaged-metrics event
(`self.log_metrics(metrics.reduce())`). -/
def runEpoch {P : Type} (step : P → P) (batches : List BatchSpec)
    (s : TrainerState P) : Option EpochError × TrainerState P :=
  let s0 : TrainerState P := { s with trainingMode := false }
  match runBatches step s0 batches with
  | (some e, s1) => (some e, s1)
  | (none, s1) => (none, { s1 with metricsEvents := s1.metricsEvents + 1 })

/-- Model of `exec_pre_epoch_hooks` / `exec_post_epoch_hooks`: every hook is
called in registration order and may mutate the trainer state. -/
def execHooks {P : Type} (hooks : List (TrainerState P → TrainerState P))
    (s : TrainerState P) : TrainerState P :=
  hooks.foldl (fun st h => h st) s

/-- Model of `Trainer.terminate_training`: set the termination flag. -/
def terminateTraining {P : Type} (s : TrainerState P) : TrainerState P :=
  { s with earlyTermination := true }

/-- Model of `Trainer.train` driven by the `LogMetrics.log_train` generator.
`r` is the number of iterations the generator has left.  Each `next()`
increments the tracker's epoch and yields; the loop body returns early when
the termination flag is set, otherwise sets train mode, runs the pre-epoch
hooks and the epoch.  A `ConvergenceError` is thrown into the generator,
which logs it and advances one iteration (incrementing the epoch again) —
or, when it was on its last iteration, finishes, so that the `throw` call
raises `StopIteration` out of `train` before the termination flag is set;
otherwise `early_termination` is then set and the post-epoch hooks run.  A
`ValueError` from the batch loop is not caught and escapes `train`. -/
def trainLoop {P : Type} (step : P → P) (sched : ℕ → List BatchSpec)
    (preHooks postHooks : List (TrainerState P → TrainerState P)) :
    ℕ → TrainerState P → Option RunError × TrainerState P
  | 0, s => (none, s)
  | r + 1, s =>
    let s1 : TrainerState P := { s with epoch := s.epoch + 1 }
    if s1.earlyTermination then (none, s1)
    else
      let s2 : TrainerState P := { s1 with trainingMode := true }
      let s3 := execHooks preHooks s2
      match runEpoch step (sched s3.epoch) s3 with
      | (none, s4) => trainLoop step sched preHooks postHooks r (execHooks postHooks s4)
      | (some (.convergence _), s4) =>
        let s5 : TrainerState P :=
          { s4 with convergenceErrorsLogged := s4.convergenceErrorsLogged + 1 }
        match r with
        | 0 => (some .stopIteration, s5)
        | r2 + 1 =>
          let s6 : TrainerState P := { s5 with epoch := s5.epoch + 1 }
          let s7 : TrainerState P := { s6 with earlyTermination := true }
          trainLoop step sched preHooks postHooks r2 (execHooks postHooks s7)
      | (some .valueError, s4) => (some .valueError, s4)

/-- Model of `Trainer.train(num_epoch)`. -/
def train {P : Type} (step : P → P) (sched : ℕ → List BatchSpec)
    (preHooks postHooks : List (TrainerState P → TrainerState P))
    (numEpoch : ℕ) (s : TrainerState P) : Option RunError × TrainerState P :=
  trainLoop step sched preHooks postHooks numEpoch s

/-! ## Test (evaluation) engine (`training.py`, lines 74-154) -/

/-- The state observed by `Test.__call__`: the model parameters, the
module's train/eval mode, the `test_outputs` buffer and the count of
emitted averaged-metrics events. -/
structure TestState (P O : Type) where
  params : P
  trainingMode : Bool
  testOutputs : List O
  metricsEvents : ℕ
  deriving DecidableEq

/-- Model of `Test.__call__`: clear the output buffer when `save_outputs` is
set, put the module in eval mode, then for every `(inputs, targets)` batch
in loader order compute `outputs = model(inputs)`, optionally store the
outputs, and accumulate `metrics += metrics_calc(outputs, targets)`;
finally reduce the aggregate into one averaged-metrics event
(`ZeroDivisionError` from `reduce` escapes the call).
`testBatchStep` is the body of the batch loop. -/
def testBatchStep {P I Tg O : Type} (forward : P → I → O)
    (metricsCalc : O → Tg → Batch) (saveOutputs : Bool)
    (acc : TestState P O × TorchAggregate) (bt : I × Tg) :
    TestState P O × TorchAggregate :=
  let outputs := forward acc.1.params bt.1
  let st : TestState P O :=
    if saveOutputs then
      { acc.1 with testOutputs := acc.1.testOutputs ++ [outputs] }
    else acc.1
  (st, acc.2.iadd (TorchAggregate.ofBatch (metricsCalc outputs bt.2)))

/-- Model of `Test.__call__` (see `testBatchStep` for the loop body). -/
def testCall {P I Tg O : Type} (forward : P → I → O)
    (metricsCalc : O → Tg → Batch) (saveOutputs : Bool)
    (batches : List (I × Tg)) (s : TestState P O) :
    TestState P O × Except Unit (List (String × ℚ)) :=
  let s0 : TestState P O :=
    if saveOutputs then { s with testOutputs := [] } else s
  let s1 : TestState P O := { s0 with trainingMode := false }
  let res :=
    batches.foldl (testBatchStep forward metricsCalc saveOutputs)
      (s1, TorchAggregate.empty)
  match res.2.reduce with
  | .error e => (res.1, .error e)
  | .ok m => ({ res.1 with metricsEvents := res.1.metricsEvents + 1 }, .ok m)

/-! ## Binding registry -/

/-- An error of the binding discipline (`AlreadyBoundedError` in the test
suite; the spec's `AlreadyBoundError` / `NotBoundError`). -/
inductive BindError where
  | alreadyBound
  | notBound
  deriving DecidableEq

/-- Modelled from the spec: the binding registry behind
`model_utils.bind_to_model` — the module `dry_torch/model_utils.py` is not
among the sources, only its use site (`Trainer.__init__`) and the test
`test_trainer.py` are.  The spec describes a relation from model name to
live training orchestrator, with at most one binding per model. -/
structure BindingRegistry where
  bindings : List (String × ℕ)
  deriving DecidableEq

/-- The orchestrator currently bound to a model, if any. -/
def BindingRegistry.lookup (reg : BindingRegistry) (model : String) :
    Option ℕ :=
  (reg.bindings.find? fun kv => kv.1 == model).map Prod.snd

/-- Modelled from the spec: `register(orchestrator, model)` fails with
`AlreadyBoundError` if the model is already bound to a live orchestrator,
otherwise records the binding. -/
def BindingRegistry.register (reg : BindingRegistry) (orch : ℕ)
    (model : String) : Option BindError × BindingRegistry :=
  match reg.lookup model with
  | some _ => (some .alreadyBound, reg)
  | none => (none, ⟨reg.bindings ++ [(model, orch)]⟩)

/-- Modelled from the spec: `unbind(orchestrator, model)` fails with
`NotBoundError` on mismatch, otherwise releases the binding. -/
def BindingRegistry.unbind (reg : BindingRegistry) (orch : ℕ)
    (model : String) : Option BindError × BindingRegistry :=
  match reg.lookup model with
  | some o =>
    if o = orch then
      (none, ⟨reg.bindings.filter fun kv => !(kv.1 == model)⟩)
    else (some .notBound, reg)
  | none => (some .notBound, reg)

/-- Well-formedness of the registry: at most one entry per model name. -/
def RegWF (reg : BindingRegistry) : Prop :=
  (reg.bindings.map Prod.fst).Nodup

/-! ## Lemmas about the trainer and evaluation engine -/

theorem execHooks_nil {P : Type} (s : TrainerState P) : execHooks [] s = s := rfl

theorem runBatches_append {P : Type} (step : P → P) (s s1 s2 : TrainerState P)
    (bs bs2 : List BatchSpec) (b : BatchSpec) (e : EpochError)
    (h1 : runBatches step s bs = (none, s1))
    (h2 : runBatch step s1 b = (some e, s2)) :
    runBatches step s (bs ++ b :: bs2) = (some e, s2) := by
  induction bs generalizing s with
  | nil =>
    simp only [runBatches] at h1
    cases h1
    simp [runBatches, h2]
  | cons b0 bs ih =>
    simp only [runBatches] at h1 ⊢
    cases hb : runBatch step s b0 with
    | mk oe st =>
      cases oe with
      | none =>
        rw [hb] at h1
        simpa [hb] using ih st h1
      | some e0 =>
        rw [hb] at h1
        simp at h1

theorem testLoop_params {P I Tg O : Type} (forward : P → I → O)
    (metricsCalc : O → Tg → Batch) (saveOutputs : Bool)
    (batches : List (I × Tg)) :
    ∀ acc : TestState P O × TorchAggregate,
      ((batches.foldl (testBatchStep forward metricsCalc saveOutputs) acc).1.params
          = acc.1.params ∧
        (batches.foldl (testBatchStep forward metricsCalc saveOutputs) acc).1.trainingMode
          = acc.1.trainingMode) := by
  induction batches with
  | nil => intro acc; exact ⟨rfl, rfl⟩
  | cons bt rest ih =>
    intro acc
    have h := ih (testBatchStep forward metricsCalc saveOutputs acc bt)
    have hp : (testBatchStep forward metricsCalc saveOutputs acc bt).1.params
        = acc.1.params := by
      simp only [testBatchStep]
      cases saveOutputs <;> simp
    have hm : (testBatchStep forward metricsCalc saveOutputs acc bt).1.trainingMode
        = acc.1.trainingMode := by
      simp only [testBatchStep]
      cases saveOutputs <;> simp
    simpa [List.foldl, hp, hm] using h

theorem testLoop_outputs_save {P I Tg O : Type} (forward : P → I → O)
    (metricsCalc : O → Tg → Batch) (batches : List (I × Tg)) :
    ∀ acc : TestState P O × TorchAggregate,
      (batches.foldl (testBatchStep forward metricsCalc true) acc).1.testOutputs
        = acc.1.testOutputs ++ batches.map fun bt => forward acc.1.params bt.1 := by
  induction batches with
  | nil => intro acc; simp
  | cons bt rest ih =>
    intro acc
    have h := ih (testBatchStep forward metricsCalc true acc bt)
    have hp : (testBatchStep forward metricsCalc true acc bt).1.params
        = acc.1.params := by
      simp [testBatchStep]
    have ho : (testBatchStep forward metricsCalc true acc bt).1.testOutputs
        = acc.1.testOutputs ++ [forward acc.1.params bt.1] := by
      simp [testBatchStep]
    simp only [List.foldl, List.map]
    rw [h, ho, hp]
    simp

theorem testLoop_outputs_noSave {P I Tg O : Type} (forward : P → I → O)
    (metricsCalc : O → Tg → Batch) (batches : List (I × Tg)) :
    ∀ acc : TestState P O × TorchAggregate,
      (batches.foldl (testBatchStep forward metricsCalc false) acc).1.testOutputs
        = acc.1.testOutputs := by
  induction batches with
  | nil => intro acc; rfl
  | cons bt rest ih =>
    intro acc
    have h := ih (testBatchStep forward metricsCalc false acc bt)
    simpa [List.foldl, testBatchStep] using h

/-! ## Lemmas about the binding registry -/

theorem lookup_of_find?_none {l : List (String × ℕ)} {m : String}
    (h : l.find? (fun kv => kv.1 == m) = none) (kv : String × ℕ)
    (hkv : kv ∈ l) : ¬(kv.1 = m) := by
  intro he
  have := List.find?_eq_none.mp h kv hkv
  simp [he] at this

theorem find?_append_none {l l2 : List (String × ℕ)} {m : String}
    (h : l.find? (fun kv => kv.1 == m) = none) :
    (l ++ l2).find? (fun kv => kv.1 == m) = l2.find? (fun kv => kv.1 == m) := by
  induction l with
  | nil => simp
  | cons kv l ih =>
    simp only [List.find?] at h ⊢
    cases hb : (kv.1 == m) with
    | true => simp [hb] at h
    | false =>
      simp only [hb, cond_false] at h ⊢
      exact ih h

theorem find?_filter_not {l : List (String × ℕ)} {m : String} :
    (l.filter fun kv => !(kv.1 == m)).find? (fun kv => kv.1 == m) = none := by
  induction l with
  | nil => simp
  | cons kv l ih =>
    by_cases hb : kv.1 = m
    · simp [List.filter, hb, ih]
    · simp only [List.filter, List.find?]
      have hb2 : (kv.1 == m) = false := by simpa using hb
      simp [hb2, ih]

theorem filter_key_length_le {l : List (String × ℕ)} {m : String}
    (h : (l.map Prod.fst).Nodup) :
    (l.filter fun kv => kv.1 == m).length ≤ 1 := by
  induction l with
  | nil => simp
  | cons kv l ih =>
    simp only [List.map, List.nodup_cons] at h
    by_cases hb : kv.1 = m
    · have hempty : (l.filter fun kv => kv.1 == m) = [] := by
        rw [List.filter_eq_nil_iff]
        intro kv2 hkv2
        have : kv2.1 ≠ kv.1 := by
          intro he
          exact h.1 (he ▸ List.mem_map_of_mem Prod.fst hkv2)
        simp [hb ▸ this]
      simp [List.filter, hb, hempty]
    · have hb2 : (kv.1 == m) = false := by simpa using hb
      simp only [List.filter, hb2]
      exact ih h.2

/-! ## Claim theorems: training and evaluation engine -/

/-- C6 (amended): in `Trainer._run_epoch`, divergence is only detected when
the backward pass raises `ValueError`: in that case `ConvergenceError` is
raised when the criterion is NaN or ±infinity and the `ValueError` is
re-raised otherwise; when the backward pass does not raise, no
`ConvergenceError` is raised and the optimizer step proceeds regardless of
the criterion value. -/
theorem run_batch_divergence_cases {P : Type} (step : P → P)
    (s : TrainerState P) (b : BatchSpec) :
    (b.backwardValueError = true → b.crit.divergent = true →
      runBatch step s b = (some (.convergence b.crit), s)) ∧
    (b.backwardValueError = true → b.crit.divergent = false →
      runBatch step s b = (some .valueError, s)) ∧
    (b.backwardValueError = false →
      runBatch step s b = (none, { s with params := step s.params })) := by
  refine ⟨fun h1 h2 => ?_, fun h1 h2 => ?_, fun h1 => ?_⟩
  · simp [runBatch, h1, h2]
  · simp [runBatch, h1, h2]
  · simp [runBatch, h1]

/-- C6 counterexample: a batch whose criterion is NaN but whose backward
pass does not raise `ValueError` triggers no `ConvergenceError`, and the
optimizer step proceeds (the parameters are updated) — refuting the claim
that a NaN criterion always raises `ConvergenceError` after the backward
pass. -/
theorem divergence_detection_cex :
    (runBatch (fun p : ℕ => p + 1) ⟨0, 0, false, false, 0, 0, 0⟩
        ⟨Crit.nan, false⟩).1 = none ∧
    (runBatch (fun p : ℕ => p + 1) ⟨0, 0, false, false, 0, 0, 0⟩
        ⟨Crit.nan, false⟩).2.params = 1 ∧
    Crit.divergent .nan = true := ⟨rfl, rfl, rfl⟩

/-- C6 witness: the three cases of `run_batch_divergence_cases` evaluated on
concrete batches. -/
theorem run_batch_divergence_cases_witness :
    runBatch (fun p : ℕ => p + 1) ⟨0, 0, false, false, 0, 0, 0⟩
        ⟨Crit.posInf, true⟩ =
      (some (.convergence Crit.posInf), ⟨0, 0, false, false, 0, 0, 0⟩) ∧
    runBatch (fun p : ℕ => p + 1) ⟨0, 0, false, false, 0, 0, 0⟩
        ⟨Crit.val 2, true⟩ =
      (some .valueError, ⟨0, 0, false, false, 0, 0, 0⟩) ∧
    runBatch (fun p : ℕ => p + 1) ⟨0, 0, false, false, 0, 0, 0⟩
        ⟨Crit.val 2, false⟩ =
      (none, ⟨1, 0, false, false, 0, 0, 0⟩) := by
  refine ⟨?_, ?_, ?_⟩
  · exact (run_batch_divergence_cases (fun p : ℕ => p + 1)
      ⟨0, 0, false, false, 0, 0, 0⟩ ⟨Crit.posInf, true⟩).1 rfl rfl
  · exact (run_batch_divergence_cases (fun p : ℕ => p + 1)
      ⟨0, 0, false, false, 0, 0, 0⟩ ⟨Crit.val 2, true⟩).2.1 rfl rfl
  · exact (run_batch_divergence_cases (fun p : ℕ => p + 1)
      ⟨0, 0, false, false, 0, 0, 0⟩ ⟨Crit.val 2, false⟩).2.2 rfl

/-- C4 (amended): `terminate_training()` is idempotent and permanently sets
the termination flag (it does not touch the binding registry); a subsequent
`train()` call performs no parameter update, runs no hooks and logs no
warning, but still increments the tracker's epoch counter by one (the
logging generator increments the epoch before the loop body observes the
termination flag, and the warning in `LogMetrics.log_train` is commented
out in the source). -/
theorem terminate_training_idempotent_noop :
    (∀ (P : Type) (s : TrainerState P),
      terminateTraining (terminateTraining s) = terminateTraining s) ∧
    (∀ (P : Type) (s : TrainerState P),
      (terminateTraining s).earlyTermination = true) ∧
    (∀ (P : Type) (step : P → P) (sched : ℕ → List BatchSpec)
      (preHooks postHooks : List (TrainerState P → TrainerState P))
      (n : ℕ) (s : TrainerState P), s.earlyTermination = true →
      train step sched preHooks postHooks (n + 1) s =
        (none, { s with epoch := s.epoch + 1 })) ∧
    (∀ (P : Type) (step : P → P) (sched : ℕ → List BatchSpec)
      (preHooks postHooks : List (TrainerState P → TrainerState P))
      (n : ℕ) (s : TrainerState P), s.earlyTermination = true →
      (train step sched preHooks postHooks n s).1 = none ∧
      (train step sched preHooks postHooks n s).2.params = s.params ∧
      (train step sched preHooks postHooks n s).2.warningsLogged
        = s.warningsLogged) := by
  refine ⟨fun P s => rfl, fun P s => rfl, ?_, ?_⟩
  · intro P step sched preHooks postHooks n s h
    simp [train, trainLoop, h]
  · intro P step sched preHooks postHooks n s h
    cases n with
    | zero => exact ⟨rfl, rfl, rfl⟩
    | succ n => simp [train, trainLoop, h]

/-- C4 counterexample: on a terminated trainer, `train(3)` logs no warning
(`warningsLogged` stays `0`) and increments the epoch counter from `0` to
`1` — refuting the claim that the call emits a warning and changes
nothing. -/
theorem train_after_terminate_cex :
    train (fun p : ℕ => p + 1) (fun _ => []) [] [] 3
        ⟨0, 0, true, false, 0, 0, 0⟩ =
      (none, ⟨0, 1, true, false, 0, 0, 0⟩) ∧ (1 : ℕ) ≠ 0 := by
  exact ⟨rfl, by decide⟩

/-- C4 witness: `terminate_training` followed by `train` on a concrete
state, through `terminate_training_idempotent_noop`. -/
theorem terminate_training_idempotent_noop_witness :
    train (fun p : ℕ => p + 1) (fun _ => [⟨Crit.val 1, false⟩]) [] [] 2
        (terminateTraining ⟨7, 4, false, true, 0, 0, 0⟩) =
      (none, ⟨7, 5, true, true, 0, 0, 0⟩) := by
  exact (terminate_training_idempotent_noop.2.2.1 ℕ (fun p => p + 1)
    (fun _ => [⟨Crit.val 1, false⟩]) [] [] 1
    (terminateTraining ⟨7, 4, false, true, 0, 0, 0⟩) rfl)

/-- C1 (amended): a `ConvergenceError` aborts the remaining batches of the
epoch in which it occurs (the updates of the preceding batches persist),
it is caught by `train` and logged at epoch granularity through the logging
generator — but the trainer then sets its own termination flag, so with no
hooks registered a two-epoch run ends with `early_termination = true`, one
logged `ConvergenceError`, no further averaged-metrics event and no
training in the second epoch (whose epoch increment still happens inside
the generator). -/
theorem trainer_divergence_epoch_granularity :
    (∀ (P : Type) (step : P → P) (s s1 s2 : TrainerState P)
      (bs bs2 : List BatchSpec) (b : BatchSpec) (e : EpochError),
      runBatches step s bs = (none, s1) →
      runBatch step s1 b = (some e, s2) →
      runBatches step s (bs ++ b :: bs2) = (some e, s2)) ∧
    (∀ (P : Type) (step : P → P) (sched : ℕ → List BatchSpec)
      (s s4 : TrainerState P) (c : Crit),
      s.earlyTermination = false →
      runEpoch step (sched (s.epoch + 1))
          { s with epoch := s.epoch + 1, trainingMode := true } =
        (some (.convergence c), s4) →
      train step sched [] [] 2 s =
        (none, ⟨s4.params, s4.epoch + 1, true, s4.trainingMode,
          s4.convergenceErrorsLogged + 1, s4.warningsLogged,
          s4.metricsEvents⟩)) := by
  constructor
  · exact fun P step s s1 s2 bs bs2 b e h1 h2 =>
      runBatches_append step s s1 s2 bs bs2 b e h1 h2
  · intro P step sched s s4 c h1 h2
    rw [h1] at h2
    show trainLoop step sched [] [] 2 s = _
    simp only [trainLoop, execHooks_nil, h1, if_neg Bool.false_ne_true]
    rw [h2]

/-- C1 counterexample: with no hooks registered, a NaN criterion on batch 3
of epoch 1 of a two-epoch run leaves the trainer with
`early_termination = true` and only the two parameter updates of the
pre-divergence batches — training does not proceed to epoch 2 (no batch of
epoch 2 is run and no averaged-metrics event is emitted), refuting the
claim that the run continues unless a hook sets the termination flag. -/
theorem trainer_divergence_cex :
    train (fun p : ℕ => p + 1)
        (fun e => if e = 1 then
            [⟨Crit.val 1, false⟩, ⟨Crit.val 1, false⟩, ⟨Crit.nan, true⟩]
          else [⟨Crit.val 1, false⟩, ⟨Crit.val 1, false⟩,
            ⟨Crit.val 1, false⟩])
        [] [] 2 ⟨0, 0, false, false, 0, 0, 0⟩ =
      (none, ⟨2, 2, true, false, 1, 0, 0⟩) ∧
    ¬((2 : ℕ) = 5 ∨ (true = false)) := by
  exact ⟨rfl, by decide⟩

/-- C1 witness: both parts of `trainer_divergence_epoch_granularity`
evaluated on concrete runs. -/
theorem trainer_divergence_epoch_granularity_witness :
    runBatches (fun p : ℕ => p + 1) ⟨0, 0, false, false, 0, 0, 0⟩
        ([⟨Crit.val 1, false⟩] ++ ⟨Crit.nan, true⟩ ::
          [⟨Crit.val 1, false⟩]) =
      (some (.convergence Crit.nan), ⟨1, 0, false, false, 0, 0, 0⟩) ∧
    train (fun p : ℕ => p + 1) (fun _ => [⟨Crit.nan, true⟩]) [] [] 2
        ⟨0, 0, false, false, 0, 0, 0⟩ =
      (none, ⟨0, 2, true, false, 1, 0, 0⟩) := by
  constructor
  · exact trainer_divergence_epoch_granularity.1 ℕ (fun p => p + 1)
      ⟨0, 0, false, false, 0, 0, 0⟩ ⟨1, 0, false, false, 0, 0, 0⟩
      ⟨1, 0, false, false, 0, 0, 0⟩ [⟨Crit.val 1, false⟩]
      [⟨Crit.val 1, false⟩] ⟨Crit.nan, true⟩ (.convergence Crit.nan) rfl rfl
  · exact trainer_divergence_epoch_granularity.2 ℕ (fun p => p + 1)
      (fun _ => [⟨Crit.nan, true⟩]) ⟨0, 0, false, false, 0, 0, 0⟩
      ⟨0, 1, false, false, 0, 0, 0⟩ Crit.nan rfl rfl

/-- C8 (amended): one `Test.__call__` never mutates the model parameters,
puts the module in evaluation mode, consumes the batches in loader order
with a fresh aggregate, stores the outputs (in order) when `save_outputs`
is set, and leaves the output buffer untouched — in particular uncleared —
when `save_outputs` is not set. -/
theorem test_call_frame {P I Tg O : Type} (forward : P → I → O)
    (metricsCalc : O → Tg → Batch) (batches : List (I × Tg))
    (s : TestState P O) :
    (∀ so : Bool,
      (testCall forward metricsCalc so batches s).1.params = s.params) ∧
    (∀ so : Bool,
      (testCall forward metricsCalc so batches s).1.trainingMode = false) ∧
    ((testCall forward metricsCalc true batches s).1.testOutputs =
      batches.map fun bt => forward s.params bt.1) ∧
    ((testCall forward metricsCalc false batches s).1.testOutputs =
      s.testOutputs) := by
  have base : ∀ so : Bool,
      (testCall forward metricsCalc so batches s).1 =
        (batches.foldl (testBatchStep forward metricsCalc so)
          ({ (if so then { s with testOutputs := [] } else s) with
              trainingMode := false }, TorchAggregate.empty)).1 ∨
      (testCall forward metricsCalc so batches s).1 =
        { (batches.foldl (testBatchStep forward metricsCalc so)
            ({ (if so then { s with testOutputs := [] } else s) with
                trainingMode := false }, TorchAggregate.empty)).1 with
          metricsEvents :=
            (batches.foldl (testBatchStep forward metricsCalc so)
              ({ (if so then { s with testOutputs := [] } else s) with
                  trainingMode := false },
                TorchAggregate.empty)).1.metricsEvents + 1 } := by
    intro so
    simp only [testCall]
    cases hr : (batches.foldl (testBatchStep forward metricsCalc so)
        ({ (if so then { s with testOutputs := [] } else s) with
            trainingMode := false }, TorchAggregate.empty)).2.reduce with
    | error e => left; rfl
    | ok m => right; rfl
  refine ⟨?_, ?_, ?_, ?_⟩
  · intro so
    rcases base so with h | h <;> rw [h] <;>
      simp only [(testLoop_params forward metricsCalc so batches _).1] <;>
      cases so <;> simp
  · intro so
    rcases base so with h | h <;> rw [h] <;>
      simp only [(testLoop_params forward metricsCalc so batches _).2] <;>
      cases so <;> simp
  · rcases base true with h | h <;> rw [h] <;>
      simp [testLoop_outputs_save forward metricsCalc batches,
        testLoop_params]
  · rcases base false with h | h <;> rw [h] <;>
      simp [testLoop_outputs_noSave forward metricsCalc batches]

/-- C8 counterexample: with `save_outputs = False` and a stale output buffer
(from a previous call with saving enabled), `Test.__call__` does not clear
the buffer — refuting the claim that every evaluation pass clears the
output buffer. -/
theorem test_call_buffer_cex :
    (testCall (fun p i : ℕ => p + i) (fun _ _ : ℕ => ([] : Batch)) false
        [(1, 1)] ⟨5, true, [9], 0⟩).1.testOutputs = [9] ∧
    ([9] : List ℕ) ≠ [] := by
  exact ⟨rfl, by decide⟩

/-! ## Claim theorems: binding registry -/

/-- C3: while a model is bound to a live orchestrator, any further
`register` on it fails with `AlreadyBoundError` and records no new binding;
registering on a free model succeeds and binds it; `unbind` by the bound
orchestrator releases the model, after which a new registration succeeds;
and a well-formed registry holds at most one binding per model (the
registry itself is modelled from the spec, `model_utils` not being among
the sources). -/
theorem binding_registry_single_writer :
    (∀ (reg : BindingRegistry) (o : ℕ) (m : String), reg.lookup m = none →
      (reg.register o m).1 = none ∧ (reg.register o m).2.lookup m = some o) ∧
    (∀ (reg : BindingRegistry) (o : ℕ) (m : String), reg.lookup m ≠ none →
      reg.register o m = (some .alreadyBound, reg)) ∧
    (∀ (reg : BindingRegistry) (o : ℕ) (m : String), reg.lookup m = some o →
      (reg.unbind o m).1 = none ∧ (reg.unbind o m).2.lookup m = none) ∧
    (∀ (reg : BindingRegistry) (o o2 : ℕ) (m : String),
      reg.lookup m = some o → ((reg.unbind o m).2.register o2 m).1 = none) ∧
    (∀ (reg : BindingRegistry) (o : ℕ) (m : String), RegWF reg →
      RegWF (reg.register o m).2 ∧ RegWF (reg.unbind o m).2 ∧
      (reg.bindings.filter fun kv => kv.1 == m).length ≤ 1) := by
  have hfind : ∀ (reg : BindingRegistry) (m : String), reg.lookup m = none →
      reg.bindings.find? (fun kv => kv.1 == m) = none := by
    intro reg m h
    cases hf : reg.bindings.find? (fun kv => kv.1 == m) with
    | none => rfl
    | some kv => simp [BindingRegistry.lookup, hf] at h
  have hlookfilter : ∀ (reg : BindingRegistry) (o : ℕ) (m : String),
      reg.lookup m = some o → (reg.unbind o m).2.lookup m = none := by
    intro reg o m h
    unfold BindingRegistry.unbind
    rw [h]
    simp [BindingRegistry.lookup, find?_filter_not]
  refine ⟨?_, ?_, ?_, ?_, ?_⟩
  · intro reg o m h
    have hf := hfind reg m h
    constructor
    · simp [BindingRegistry.register, h]
    · simp only [BindingRegistry.register, h]
      simp only [BindingRegistry.lookup, find?_append_none hf, List.find?]
      simp
  · intro reg o m h
    cases hl : reg.lookup m with
    | none => exact absurd hl h
    | some o2 => simp [BindingRegistry.register, hl]
  · intro reg o m h
    refine ⟨?_, hlookfilter reg o m h⟩
    simp [BindingRegistry.unbind, h]
  · intro reg o o2 m h
    have h2 := hlookfilter reg o m h
    simp [BindingRegistry.register, h2]
  · intro reg o m hwf
    refine ⟨?_, ?_, filter_key_length_le hwf⟩
    · cases hl : reg.lookup m with
      | some o2 => simpa [BindingRegistry.register, hl] using hwf
      | none =>
        have hf := hfind reg m hl
        simp only [BindingRegistry.register, hl, RegWF, List.map_append,
          List.map_cons, List.map_nil]
        rw [List.nodup_append]
        refine ⟨hwf, List.nodup_singleton m, ?_⟩
        intro x hx
        simp only [List.mem_singleton]
        intro he
        rcases List.mem_map.mp hx with ⟨kv, hkv, hkfst⟩
        exact lookup_of_find?_none hf kv hkv (by rw [hkfst, he])
    · cases hl : reg.lookup m with
      | none => simpa [BindingRegistry.unbind, hl] using hwf
      | some o2 =>
        by_cases ho : o2 = o
        · subst ho
          simp only [BindingRegistry.unbind, hl, if_pos rfl, RegWF]
          exact List.Nodup.sublist
            (List.Sublist.map Prod.fst (List.filter_sublist _)) hwf
        · simpa [BindingRegistry.unbind, hl, ho] using hwf

/-- C3 witness: a concrete register/register/unbind/register sequence
through `binding_registry_single_writer`. -/
theorem binding_registry_single_writer_witness :
    ((⟨[]⟩ : BindingRegistry).register 1 "m").1 = none ∧
    ((⟨[("m", 1)]⟩ : BindingRegistry).register 2 "m") =
      (some .alreadyBound, ⟨[("m", 1)]⟩) ∧
    ((⟨[("m", 1)]⟩ : BindingRegistry).unbind 1 "m").2.lookup "m" = none ∧
    (((⟨[("m", 1)]⟩ : BindingRegistry).unbind 1 "m").2.register 3 "m").1
      = none ∧
    ((⟨[("m", 1), ("n", 2)]⟩ : BindingRegistry).bindings.filter
      fun kv => kv.1 == "m").length ≤ 1 := by
  refine ⟨(binding_registry_single_writer.1 ⟨[]⟩ 1 "m" rfl).1,
    binding_registry_single_writer.2.1 ⟨[("m", 1)]⟩ 2 "m" (by decide),
    (binding_registry_single_writer.2.2.1 ⟨[("m", 1)]⟩ 1 "m" rfl).2,
    binding_registry_single_writer.2.2.2.1 ⟨[("m", 1)]⟩ 1 3 "m" rfl,
    (binding_registry_single_writer.2.2.2.2 ⟨[("m", 1), ("n", 2)]⟩ 1 "m"
      (by unfold RegWF; decide)).2.2⟩

/-! ## Lemmas about recursive_apply -/

mutual

theorem recursiveApply_ok {T : Type} (f : T → T) :
    ∀ v : PyVal T, Supported v = true →
      recursiveApply f v = .ok (mapLeaves f v)
  | .leaf t, _ => by simp [recursiveApply, mapLeaves]
  | .other, h => by simp [Supported] at h
  | .mapping es, h => by
    have h2 : (es.all fun kv => kv.1.isStr) = true ∧
        supportedEntries es = true := by
      simpa [Supported, Bool.and_eq_true] using h
    have hes := applyEntries_ok f es h2.2
    simp [recursiveApply, mapLeaves, hes, h2.1]
  | .seq items, h => by
    have hi := applyItems_ok f items (by simpa [Supported] using h)
    simp [recursiveApply, mapLeaves, hi]
  | .tup items, h => by
    have hi := applyItems_ok f items (by simpa [Supported] using h)
    simp [recursiveApply, mapLeaves, hi]
  | .record recon items, h => by
    have h2 : recon = true ∧ supportedItems items = true := by
      simpa [Supported, Bool.and_eq_true] using h
    have hi := applyItems_ok f items h2.2
    simp [recursiveApply, mapLeaves, hi, h2.1]

theorem applyEntries_ok {T : Type} (f : T → T) :
    ∀ es : List (PyKey × PyVal T), supportedEntries es = true →
      applyEntries f es = .ok (mapLeavesEntries f es)
  | [], _ => by simp [applyEntries, mapLeavesEntries]
  | (k, v) :: es, h => by
    have h2 : Supported v = true ∧ supportedEntries es = true := by
      simpa [supportedEntries, Bool.and_eq_true] using h
    have hv := recursiveApply_ok f v h2.1
    have hes := applyEntries_ok f es h2.2
    simp [applyEntries, mapLeavesEntries, hv, hes]

theorem applyItems_ok {T : Type} (f : T → T) :
    ∀ items : List (PyVal T), supportedItems items = true →
      applyItems f items = .ok (mapLeavesItems f items)
  | [], _ => by simp [applyItems, mapLeavesItems]
  | v :: items, h => by
    have h2 : Supported v = true ∧ supportedItems items = true := by
      simpa [supportedItems, Bool.and_eq_true] using h
    have hv := recursiveApply_ok f v h2.1
    have hi := applyItems_ok f items h2.2
    simp [applyItems, mapLeavesItems, hv, hi]

end

mutual

theorem mapLeaves_id {T : Type} :
    ∀ v : PyVal T, mapLeaves (fun t => t) v = v
  | .leaf _ => by simp [mapLeaves]
  | .other => by simp [mapLeaves]
  | .mapping es => by simp [mapLeaves, mapLeavesEntries_id es]
  | .seq items => by simp [mapLeaves, mapLeavesItems_id items]
  | .tup items => by simp [mapLeaves, mapLeavesItems_id items]
  | .record recon items => by simp [mapLeaves, mapLeavesItems_id items]

theorem mapLeavesEntries_id {T : Type} :
    ∀ es : List (PyKey × PyVal T), mapLeavesEntries (fun t => t) es = es
  | [] => by simp [mapLeavesEntries]
  | (k, v) :: es => by
    simp [mapLeavesEntries, mapLeaves_id v, mapLeavesEntries_id es]

theorem mapLeavesItems_id {T : Type} :
    ∀ items : List (PyVal T), mapLeavesItems (fun t => t) items = items
  | [] => by simp [mapLeavesItems]
  | v :: items => by
    simp [mapLeavesItems, mapLeaves_id v, mapLeavesItems_id items]

end

/-! ## Claim theorems: recursive_apply -/

/-- C5 (amended): for every structure built only from string-keyed
mappings, mutable sequences, plain tuples, reconstructible records and
leaves of the expected type, `recursive_apply` returns the structurally
equal copy in which every leaf is replaced by `func(leaf)` (the identity
function returns a value-equal structure); a mapping that contains a
non-string key — which the spec admits as hashable — makes the keyword
expansion that rebuilds the mapping raise `TypeError` instead, once its
values have transformed without error. -/
theorem recursive_apply_maps_leaves {T : Type} :
    (∀ (f : T → T) (v : PyVal T), Supported v = true →
      recursiveApply f v = .ok (mapLeaves f v)) ∧
    (∀ v : PyVal T, Supported v = true →
      recursiveApply (fun t => t) v = .ok v) ∧
    (∀ (f : T → T) (es : List (PyKey × PyVal T)),
      supportedEntries es = true →
      (es.all fun kv => kv.1.isStr) = false →
      recursiveApply f (.mapping es) = .error .typeError) :=
  ⟨fun f v h => recursiveApply_ok f v h,
   fun v h => by rw [recursiveApply_ok (fun t => t) v h, mapLeaves_id],
   fun f es hvals hkeys => by
     have hes := applyEntries_ok f es hvals
     simp [recursiveApply, hes, hkeys]⟩

/-- C5 counterexample: a mapping whose only key is a non-string hashable
value — admitted by the claim, which covers mappings with any hashable
key — raises `TypeError` from `mapping.update(**{...})` even under the
identity function, instead of returning the value-equal copy. -/
theorem recursive_apply_nonstr_key_cex :
    recursiveApply (fun t : ℕ => t)
        (.mapping [(PyKey.nonStr 1, .leaf 5)]) = .error .typeError ∧
    (Except.error ROError.typeError : Except ROError (PyVal ℕ)) ≠
      .ok (.mapping [(PyKey.nonStr 1, .leaf 5)]) := by
  constructor
  · rfl
  · simp

/-- C5 witness: `recursive_apply_maps_leaves` on a concrete nested
structure mixing a string-keyed mapping, a sequence, a plain tuple and a
namedtuple, and on a mapping with a non-string key. -/
theorem recursive_apply_maps_leaves_witness :
    recursiveApply (fun n : ℕ => n + 1)
        (.mapping [(PyKey.str "a", .seq [.leaf 1, .tup [.leaf 2]]),
          (PyKey.str "b", .record true [.leaf 3])]) =
      .ok (mapLeaves (fun n : ℕ => n + 1)
        (.mapping [(PyKey.str "a", .seq [.leaf 1, .tup [.leaf 2]]),
          (PyKey.str "b", .record true [.leaf 3])])) ∧
    recursiveApply (fun n : ℕ => n)
        (.mapping [(PyKey.str "a", .seq [.leaf 1, .tup [.leaf 2]]),
          (PyKey.str "b", .record true [.leaf 3])]) =
      .ok (.mapping [(PyKey.str "a", .seq [.leaf 1, .tup [.leaf 2]]),
        (PyKey.str "b", .record true [.leaf 3])]) ∧
    recursiveApply (fun n : ℕ => n + 1)
        (.mapping [(PyKey.str "a", .leaf 1), (PyKey.nonStr 2, .leaf 3)]) =
      .error .typeError :=
  ⟨recursive_apply_maps_leaves.1 (fun n => n + 1)
      (.mapping [(PyKey.str "a", .seq [.leaf 1, .tup [.leaf 2]]),
        (PyKey.str "b", .record true [.leaf 3])]) rfl,
   recursive_apply_maps_leaves.2.1
      (.mapping [(PyKey.str "a", .seq [.leaf 1, .tup [.leaf 2]]),
        (PyKey.str "b", .record true [.leaf 3])]) rfl,
   recursive_apply_maps_leaves.2.2 (fun n => n + 1)
      [(PyKey.str "a", .leaf 1), (PyKey.nonStr 2, .leaf 3)] rfl rfl⟩

/-- C7 (amended): a non-reconstructible tuple-like value whose elements all
transform without error raises `NamedTupleOnlyError` (the spec's
`NotReconstructibleError`); a value that is neither of the expected type
nor a supported container raises `FuncNotApplicableError` (the spec's
`UnsupportedTypeError`). -/
theorem recursive_apply_error_cases {T : Type} :
    (∀ (f : T → T) (recon : Bool) (items : List (PyVal T)),
      supportedItems items = true → recon = false →
      recursiveApply f (.record recon items) = .error .namedTupleOnly) ∧
    (∀ f : T → T,
      recursiveApply f (.other : PyVal T) = .error .funcNotApplicable) := by
  constructor
  · intro f recon items hi hr
    subst hr
    have h := applyItems_ok f items hi
    simp [recursiveApply, h]
  · intro f
    simp [recursiveApply]

/-- C7 counterexample: a non-reconstructible tuple-like value containing an
unsupported element raises `FuncNotApplicableError` rather than
`NamedTupleOnlyError`, because the constructor's arguments (the transformed
elements) are evaluated first — refuting the claim that every
non-reconstructible tuple-like value raises the reconstruction error. -/
theorem nonreconstructible_error_cex :
    recursiveApply (fun t : ℕ => t) (.record false [.other]) =
      .error .funcNotApplicable ∧
    ROError.funcNotApplicable ≠ ROError.namedTupleOnly := by
  constructor
  · simp [recursiveApply, applyItems]
  · decide

/-- C7 witness: `recursive_apply_error_cases` on a concrete
non-reconstructible record with a supported element, and a concrete
unsupported leaf. -/
theorem recursive_apply_error_cases_witness :
    recursiveApply (fun n : ℕ => n + 1) (.record false [.leaf 5]) =
      .error .namedTupleOnly ∧
    recursiveApply (fun n : ℕ => n + 1) (.other : PyVal ℕ) =
      .error .funcNotApplicable :=
  ⟨recursive_apply_error_cases.1 (fun n => n + 1) false [.leaf 5] rfl rfl,
   recursive_apply_error_cases.2 (fun n => n + 1)⟩

/-! ## Lemmas about DictList -/

theorem dictLookup_cons_self {V : Type} (kv : String × V) (d : Dict V) :
    dictLookup (kv :: d) kv.1 = some kv.2 := by
  simp [dictLookup, List.find?]

theorem dictLookup_cons_ne {V : Type} (kv : String × V) (d : Dict V)
    (k : String) (h : ¬(kv.1 = k)) : dictLookup (kv :: d) k = dictLookup d k := by
  have hb : (kv.1 == k) = false := by simpa using h
  simp [dictLookup, List.find?, hb]

theorem dictKeys_map_lookup {V : Type} [Inhabited V] (d : Dict V)
    (h : (dictKeys d).Nodup) :
    ((dictKeys d).map fun k => (dictLookup d k).getD default) =
      d.map Prod.snd := by
  induction d with
  | nil => rfl
  | cons kv d ih =>
    simp only [dictKeys, List.map_cons, List.nodup_cons] at h ⊢
    have htail : ∀ k ∈ d.map Prod.fst,
        (dictLookup (kv :: d) k).getD default =
          (dictLookup d k).getD default := by
      intro k hk
      rw [dictLookup_cons_ne kv d k (fun he => h.1 (he ▸ hk))]
    rw [dictLookup_cons_self, List.map_congr_left htail]
    simp only [Option.getD_some, List.cons.injEq]
    exact ⟨trivial, by simpa [dictKeys] using ih h.2⟩

theorem keySetEqb_nil_of_ne {V : Type} (d : Dict V) (hd : d ≠ []) :
    keySetEqb ([] : List String) d = false := by
  cases d with
  | nil => exact absurd rfl hd
  | cons kv d => simp [keySetEqb, dictKeys]

theorem validateDict_mismatch {V : Type} [Inhabited V] (keys : List String)
    (d : Dict V) (hk : keys ≠ []) (hne : keySetEqb keys d = false) :
    validateDict keys d = .error .keysAlreadySet := by
  have he : keys.isEmpty = false := by
    cases keys with
    | nil => exact absurd rfl hk
    | cons k ks => rfl
  simp [validateDict, hne, he]

theorem validateDict_ok_facts {V : Type} [Inhabited V] {keys ks : List String}
    {d : Dict V} {vals : List V}
    (h : validateDict keys d = .ok (ks, vals)) :
    vals.length = ks.length ∧ (keys ≠ [] → ks = keys) ∧
      (ks = [] → keys = [] ∧ d = []) := by
  by_cases h1 : keySetEqb keys d = true
  · simp only [validateDict, h1, if_true, Except.ok.injEq, Prod.mk.injEq] at h
    refine ⟨?_, fun _ => h.1.symm, fun hks => ?_⟩
    · rw [← h.1, ← h.2]
      simp
    · subst hks
      rcases h with ⟨hkeys, hvals⟩
      subst hkeys
      simp only [keySetEqb, Bool.and_eq_true, List.all_eq_true] at h1
      refine ⟨rfl, ?_⟩
      cases d with
      | nil => rfl
      | cons kv d =>
        have := h1.2 kv.1 (by simp [dictKeys])
        simp at this
  · have h1f : keySetEqb keys d = false := by simpa using h1
    by_cases h2 : keys.isEmpty = true
    · have hkeys : keys = [] := by simpa [List.isEmpty_iff] using h2
      subst hkeys
      simp only [validateDict, h1f, Bool.false_eq_true, if_false,
        List.isEmpty_nil, if_true, Except.ok.injEq, Prod.mk.injEq] at h
      refine ⟨?_, fun hne => absurd rfl hne, fun hks => ⟨rfl, ?_⟩⟩
      · rw [← h.1, ← h.2]
        simp
      · rw [← h.1] at hks
        cases d with
        | nil => rfl
        | cons kv d => simp [dictKeys] at hks
    · have h2f : keys.isEmpty = false := by simpa using h2
      simp [validateDict, h1f, h2f] at h

theorem extendD_keys {V : Type} [Inhabited V] (ds : List (Dict V)) :
    ∀ dl : DictList V, dl.keys ≠ [] → (dl.extendD ds).2.keys = dl.keys := by
  induction ds with
  | nil => intro dl _; rfl
  | cons d ds ih =>
    intro dl hk
    simp only [DictList.extendD]
    cases hv : validateDict dl.keys d with
    | error e => rfl
    | ok kv =>
      obtain ⟨ks, vals⟩ := kv
      have hks := ((validateDict_ok_facts hv).2.1 hk)
      have hkne : (⟨ks, dl.tupleList ++ [vals]⟩ : DictList V).keys ≠ [] := by
        simpa [hks] using hk
      rw [ih ⟨ks, dl.tupleList ++ [vals]⟩ hkne]
      exact hks

theorem extendD_wf {V : Type} [Inhabited V] (ds : List (Dict V)) :
    ∀ dl : DictList V, dl.WF → (∀ d ∈ ds, d ≠ []) →
      (dl.extendD ds).2.WF := by
  induction ds with
  | nil => intro dl hwf _; exact hwf
  | cons d ds ih =>
    intro dl hwf hds
    simp only [DictList.extendD]
    cases hv : validateDict dl.keys d with
    | error e => exact hwf
    | ok kv =>
      obtain ⟨ks, vals⟩ := kv
      have hf := validateDict_ok_facts hv
      have hwf1 : (DictList.mk ks (dl.tupleList ++ [vals]) : DictList V).WF := by
        constructor
        · intro row hrow
          rcases List.mem_append.mp hrow with hrow | hrow
          · by_cases hk : dl.keys = []
            · rw [hwf.2 hk] at hrow
              simp at hrow
            · rw [hf.2.1 hk]
              exact hwf.1 row hrow
          · have : row = vals := by simpa using hrow
            rw [this]
            exact hf.1
        · intro hks
          rcases hf.2.2 hks with ⟨_, hd⟩
          exact absurd hd (hds d (by simp))
      exact ih ⟨ks, dl.tupleList ++ [vals]⟩ hwf1
        (fun d2 hd2 => hds d2 (by simp [hd2]))

theorem extendD_take {V : Type} [Inhabited V] (ds : List (Dict V)) :
    ∀ dl : DictList V, ∃ n ≤ ds.length,
      (dl.extendD (ds.take n)).1 = none ∧
      (dl.extendD ds).2 = (dl.extendD (ds.take n)).2 := by
  induction ds with
  | nil => intro dl; exact ⟨0, le_rfl, rfl, rfl⟩
  | cons d ds ih =>
    intro dl
    cases hv : validateDict dl.keys d with
    | error e =>
      refine ⟨0, by simp, rfl, ?_⟩
      simp only [List.take_zero, DictList.extendD, hv]
    | ok kv =>
      obtain ⟨ks, vals⟩ := kv
      obtain ⟨n, hn, h1, h2⟩ := ih ⟨ks, dl.tupleList ++ [vals]⟩
      refine ⟨n + 1, by simpa using hn, ?_, ?_⟩
      · simpa only [List.take_succ_cons, DictList.extendD, hv] using h1
      · simpa only [List.take_succ_cons, DictList.extendD, hv] using h2

/-! ## Claim theorems: DictList -/

/-- C9 (amended): for input dictionaries with non-empty key sets, the key
tuple of a `DictList` is fixed by the first inserted dictionary and no
mutating operation changes it afterwards; every stored element has exactly
one value per key (and none is stored before keys are set); `append`,
`insert` and single-item assignment with a dictionary whose key set differs
raise `KeysAlreadySetError` and leave the list unchanged, while `extend`
raises at the first offending dictionary but keeps the previously validated
prefix appended. -/
theorem dict_list_invariants {V : Type} [Inhabited V] :
    (∀ d : Dict V, d ≠ [] → (dictKeys d).Nodup →
      DictList.empty.appendD d = (none, ⟨dictKeys d, [d.map Prod.snd]⟩)) ∧
    (∀ (dl : DictList V) (d : Dict V) (i : ℕ) (ds : List (Dict V)),
      dl.keys ≠ [] →
      (dl.appendD d).2.keys = dl.keys ∧ (dl.insertD i d).2.keys = dl.keys ∧
      (dl.setItemD i d).2.keys = dl.keys ∧ (dl.extendD ds).2.keys = dl.keys) ∧
    (∀ (dl : DictList V) (d : Dict V) (i : ℕ), dl.keys ≠ [] →
      keySetEqb dl.keys d = false →
      dl.appendD d = (some .keysAlreadySet, dl) ∧
      dl.insertD i d = (some .keysAlreadySet, dl) ∧
      dl.setItemD i d = (some .keysAlreadySet, dl)) ∧
    (∀ (dl : DictList V) (ds : List (Dict V)), ∃ n ≤ ds.length,
      (dl.extendD (ds.take n)).1 = none ∧
      (dl.extendD ds).2 = (dl.extendD (ds.take n)).2) ∧
    (∀ (dl : DictList V) (d : Dict V) (i : ℕ) (ds : List (Dict V)),
      dl.WF → d ≠ [] → (∀ d2 ∈ ds, d2 ≠ []) →
      (dl.appendD d).2.WF ∧ (dl.insertD i d).2.WF ∧
      (dl.setItemD i d).2.WF ∧ (dl.extendD ds).2.WF) := by
  have happend_wf : ∀ (dl : DictList V) (d : Dict V), dl.WF → d ≠ [] →
      (dl.appendD d).2.WF := by
    intro dl d hwf hd
    simp only [DictList.appendD]
    cases hv : validateDict dl.keys d with
    | error e => exact hwf
    | ok kv =>
      obtain ⟨ks, vals⟩ := kv
      have hf := validateDict_ok_facts hv
      constructor
      · intro row hrow
        rcases List.mem_append.mp hrow with hrow | hrow
        · by_cases hk : dl.keys = []
          · rw [hwf.2 hk] at hrow
            simp at hrow
          · rw [hf.2.1 hk]
            exact hwf.1 row hrow
        · have : row = vals := by simpa using hrow
          rw [this]
          exact hf.1
      · intro hks
        rcases hf.2.2 hks with ⟨_, hdnil⟩
        exact absurd hdnil hd
  refine ⟨?_, ?_, ?_, ?_, ?_⟩
  · intro d hd hnd
    have hne := keySetEqb_nil_of_ne d hd
    simp only [DictList.appendD, DictList.empty, validateDict, hne,
      Bool.false_eq_true, if_false, List.isEmpty_nil, if_true]
    rw [dictKeys_map_lookup d hnd]
    rfl
  · intro dl d i ds hk
    refine ⟨?_, ?_, ?_, extendD_keys ds dl hk⟩
    · simp only [DictList.appendD]
      cases hv : validateDict dl.keys d with
      | error e => rfl
      | ok kv =>
        obtain ⟨ks, vals⟩ := kv
        exact (validateDict_ok_facts hv).2.1 hk
    · simp only [DictList.insertD]
      cases hv : validateDict dl.keys d with
      | error e => rfl
      | ok kv =>
        obtain ⟨ks, vals⟩ := kv
        exact (validateDict_ok_facts hv).2.1 hk
    · simp only [DictList.setItemD]
      cases hv : validateDict dl.keys d with
      | error e => rfl
      | ok kv =>
        obtain ⟨ks, vals⟩ := kv
        have := (validateDict_ok_facts hv).2.1 hk
        by_cases hi : i < dl.tupleList.length <;> simp [hi, this]
  · intro dl d i hk hne
    have hv := validateDict_mismatch dl.keys d hk hne
    exact ⟨by simp [DictList.appendD, hv], by simp [DictList.insertD, hv],
      by simp [DictList.setItemD, hv]⟩
  · intro dl ds
    exact extendD_take ds dl
  · intro dl d i ds hwf hd hds
    refine ⟨happend_wf dl d hwf hd, ?_, ?_, extendD_wf ds dl hwf hds⟩
    · simp only [DictList.insertD]
      cases hv : validateDict dl.keys d with
      | error e => exact hwf
      | ok kv =>
        obtain ⟨ks, vals⟩ := kv
        have hf := validateDict_ok_facts hv
        constructor
        · intro row hrow
          have hcases : row ∈ dl.tupleList ∨ row = vals := by
            rcases List.mem_append.mp hrow with h | h
            · rcases List.mem_append.mp h with h | h
              · exact Or.inl (List.mem_of_mem_take h)
              · exact Or.inr (by simpa using h)
            · exact Or.inl (List.mem_of_mem_drop h)
          rcases hcases with h | h
          · by_cases hknil : dl.keys = []
            · rw [hwf.2 hknil] at h
              simp at h
            · rw [hf.2.1 hknil]
              exact hwf.1 row h
          · rw [h]
            exact hf.1
        · intro hks
          rcases hf.2.2 hks with ⟨_, hdnil⟩
          exact absurd hdnil hd
    · simp only [DictList.setItemD]
      cases hv : validateDict dl.keys d with
      | error e => exact hwf
      | ok kv =>
        obtain ⟨ks, vals⟩ := kv
        have hf := validateDict_ok_facts hv
        have hrows : ∀ row ∈ dl.tupleList, row.length = ks.length := by
          intro row hrow
          by_cases hknil : dl.keys = []
          · rw [hwf.2 hknil] at hrow
            simp at hrow
          · rw [hf.2.1 hknil]
            exact hwf.1 row hrow
        have hkeysne : ks = [] → False := by
          intro hks
          exact absurd (hf.2.2 hks).2 hd
        by_cases hi : i < dl.tupleList.length
        · simp only [hi, if_true]
          constructor
          · intro row hrow
            rcases List.mem_or_eq_of_mem_set hrow with h | h
            · exact hrows row h
            · rw [h]
              exact hf.1
          · intro hks
            exact absurd hks hkeysne
        · simp only [hi, if_false]
          exact ⟨hrows, fun hks => absurd hks hkeysne⟩

/-- C9 counterexample: extending a fresh `DictList` with two dictionaries
whose key sets differ raises `KeysAlreadySetError` but leaves the first
dictionary appended — the failing mutating operation does not leave the
list unchanged (`extend` consumes the lazy validating map element by
element). -/
theorem dict_list_extend_cex :
    DictList.empty.extendD [[("a", (1 : ℕ))], [("b", 2)]] =
      (some .keysAlreadySet, ⟨["a"], [[1]]⟩) ∧
    (⟨["a"], [[1]]⟩ : DictList ℕ) ≠ DictList.empty := by
  constructor
  · rfl
  · decide

/-- C9 witness: `dict_list_invariants` on concrete dictionaries and
lists. -/
theorem dict_list_invariants_witness :
    DictList.empty.appendD [("a", (1 : ℕ)), ("b", 2)] =
      (none, ⟨["a", "b"], [[1, 2]]⟩) ∧
    ((⟨["a"], [[1]]⟩ : DictList ℕ).appendD [("b", 2)]).2.keys = ["a"] ∧
    (⟨["a"], [[1]]⟩ : DictList ℕ).appendD [("b", 2)] =
      (some .keysAlreadySet, ⟨["a"], [[1]]⟩) ∧
    (∃ n ≤ 1, ((⟨["a"], [[1]]⟩ : DictList ℕ).extendD
        ([[("b", 2)]].take n)).1 = none ∧
      ((⟨["a"], [[1]]⟩ : DictList ℕ).extendD [[("b", 2)]]).2 =
        ((⟨["a"], [[1]]⟩ : DictList ℕ).extendD ([[("b", 2)]].take n)).2) ∧
    ((⟨["a"], [[1]]⟩ : DictList ℕ).appendD [("a", 3)]).2.WF := by
  refine ⟨?_, ?_, ?_, ?_, ?_⟩
  · exact dict_list_invariants.1 [("a", 1), ("b", 2)] (by decide) (by decide)
  · exact ((dict_list_invariants.2.1 ⟨["a"], [[1]]⟩ [("b", 2)] 0 []
      (by decide)).1)
  · exact ((dict_list_invariants.2.2.1 ⟨["a"], [[1]]⟩ [("b", 2)] 0
      (by decide) (by decide)).1)
  · exact dict_list_invariants.2.2.2.1 (⟨["a"], [[1]]⟩ : DictList ℕ)
      [[("b", 2)]]
  · exact (dict_list_invariants.2.2.2.2 (⟨["a"], [[1]]⟩ : DictList ℕ)
      [("a", 3)] 0 [] ⟨by decide, by decide⟩ (by decide) (by decide)).1

/-! ## Lemmas about TorchAggregate: key formatting -/

theorem charToNat_ofNat (n : ℕ) (h : n.isValidChar) :
    (Char.ofNat n).toNat = n := by
  simp only [Char.ofNat, dif_pos h, Char.ofNatAux, Char.toNat]
  rfl

theorem toUpper_idem (c : Char) : c.toUpper.toUpper = c.toUpper := by
  unfold Char.toUpper
  by_cases h : c.toNat ≥ 97 ∧ c.toNat ≤ 122
  · have hv : (c.toNat - 32).isValidChar := by
      left
      omega
    have ht : (Char.ofNat (c.toNat - 32)).toNat = c.toNat - 32 :=
      charToNat_ofNat _ hv
    simp only [if_pos h, ht]
    rw [if_neg]
    omega
  · simp only [if_neg h]

theorem formatKey_idem (k : String) : formatKey (formatKey k) = formatKey k := by
  unfold formatKey
  cases hd : k.data with
  | nil => rfl
  | cons c cs => simp [toUpper_idem]

/-! ## Lemmas about TorchAggregate: setItem and ofBatch -/

theorem batchKeys_nil : batchKeys [] = [] := rfl

theorem batchKeys_cons (kv : String × Tensor) (b : Batch) :
    batchKeys (kv :: b) = formatKey kv.1 :: batchKeys b := rfl

theorem setItems_nil (a : TorchAggregate) : a.setItems [] = a := rfl

theorem setItems_cons (a : TorchAggregate) (kv : String × Tensor) (b : Batch) :
    a.setItems (kv :: b) = (a.setItem kv.1 kv.2).setItems b := rfl

theorem empty_inv : AggInv TorchAggregate.empty :=
  ⟨List.nodup_nil, fun _ _ => ⟨rfl, rfl⟩⟩

theorem setItem_inv {a : TorchAggregate} (ha : AggInv a) (key : String)
    (v : Tensor) : AggInv (a.setItem key v) := by
  constructor
  · simp only [TorchAggregate.setItem]
    by_cases h : formatKey key ∈ a.keys
    · simpa [h] using ha.1
    · simp only [h, if_false]
      rw [List.nodup_append]
      refine ⟨ha.1, List.nodup_singleton _, ?_⟩
      intro x hx
      simp only [List.mem_singleton]
      intro he
      exact h (he ▸ hx)
  · intro x hx
    simp only [TorchAggregate.setItem] at hx ⊢
    by_cases h : formatKey key ∈ a.keys
    · simp only [h, if_true] at hx
      have hxk : ¬(x = formatKey key) := fun he => hx (he ▸ h)
      simp only [hxk, if_false]
      exact ha.2 x hx
    · simp only [h, if_false, List.mem_append, List.mem_singleton, not_or] at hx
      simp only [hx.2, if_false]
      exact ha.2 x hx.1

theorem setItems_inv {a : TorchAggregate} (ha : AggInv a) :
    ∀ b : Batch, AggInv (a.setItems b) := by
  intro b
  induction b generalizing a with
  | nil => exact ha
  | cons kv rest ih => exact setItems_cons a kv rest ▸ ih (setItem_inv ha kv.1 kv.2)

theorem ofBatch_inv (b : Batch) : AggInv (TorchAggregate.ofBatch b) :=
  setItems_inv empty_inv b

theorem setItems_off (b : Batch) :
    ∀ (a : TorchAggregate) (x : String), x ∉ batchKeys b →
      (a.setItems b).aggregate x = a.aggregate x ∧
      (a.setItems b).counts x = a.counts x := by
  induction b with
  | nil => exact fun a x _ => ⟨rfl, rfl⟩
  | cons kv rest ih =>
    intro a x hx
    simp only [batchKeys, List.map_cons, List.mem_cons, not_or] at hx
    rw [setItems_cons]
    have h := ih (a.setItem kv.1 kv.2) x (by simpa [batchKeys] using hx.2)
    rw [h.1, h.2]
    simp [TorchAggregate.setItem, hx.1]

theorem bAgg_off {M : Type} [AddCommMonoid M] (g : Tensor → M) (b : Batch)
    (x : String) (hx : x ∉ batchKeys b) : bAgg g b x = 0 := by
  have hf : (b.filter fun kv => formatKey kv.1 == x) = [] := by
    rw [List.filter_eq_nil_iff]
    intro kv hkv
    simp only [beq_iff_eq]
    intro he
    exact hx (he ▸ List.mem_map_of_mem (fun kv => formatKey kv.1) hkv)
  simp [bAgg, hf]

theorem bAgg_cons {M : Type} [AddCommMonoid M] (g : Tensor → M)
    (kv : String × Tensor) (b : Batch) (x : String) :
    bAgg g (kv :: b) x =
      (if formatKey kv.1 = x then g kv.2 else 0) + bAgg g b x := by
  by_cases h : formatKey kv.1 = x
  · have hb : (formatKey kv.1 == x) = true := by simpa using h
    simp [bAgg, List.filter, hb, h]
  · have hb : (formatKey kv.1 == x) = false := by simpa using h
    simp [bAgg, List.filter, hb, h]

theorem setItems_keys (b : Batch) :
    ∀ a : TorchAggregate, (batchKeys b).Nodup →
      (∀ k ∈ batchKeys b, k ∉ a.keys) →
      (a.setItems b).keys = a.keys ++ batchKeys b := by
  induction b with
  | nil => intro a _ _; rw [setItems_nil, batchKeys_nil, List.append_nil]
  | cons kv rest ih =>
    intro a hnd hdisj
    rw [batchKeys_cons, List.nodup_cons] at hnd
    have hfk : formatKey kv.1 ∉ a.keys :=
      hdisj (formatKey kv.1) (by rw [batchKeys_cons]; exact List.mem_cons_self _ _)
    rw [setItems_cons]
    have hkeys1 : (a.setItem kv.1 kv.2).keys = a.keys ++ [formatKey kv.1] := by
      simp [TorchAggregate.setItem, hfk]
    have hdisj2 : ∀ k ∈ batchKeys rest, k ∉ (a.setItem kv.1 kv.2).keys := by
      intro k hk
      rw [hkeys1]
      simp only [List.mem_append, List.mem_singleton, not_or]
      refine ⟨hdisj k ?_, fun he => hnd.1 (he ▸ hk)⟩
      rw [batchKeys_cons]
      exact List.mem_cons_of_mem _ hk
    rw [ih (a.setItem kv.1 kv.2) hnd.2 hdisj2, hkeys1, batchKeys_cons]
    simp

theorem setItems_agg_mem (b : Batch) :
    ∀ (a : TorchAggregate) (x : String), (batchKeys b).Nodup →
      x ∈ batchKeys b →
      (a.setItems b).aggregate x = bAgg tensorSum b x ∧
      (a.setItems b).counts x = bAgg numel b x := by
  induction b with
  | nil => intro a x _ hx; rw [batchKeys_nil] at hx; simp at hx
  | cons kv rest ih =>
    intro a x hnd hx
    rw [batchKeys_cons, List.nodup_cons] at hnd
    rw [setItems_cons, bAgg_cons, bAgg_cons]
    by_cases he : x = formatKey kv.1
    · have hrest : x ∉ batchKeys rest := he ▸ hnd.1
      have hoff := setItems_off rest (a.setItem kv.1 kv.2) x hrest
      have hbo1 : bAgg tensorSum rest x = 0 := bAgg_off tensorSum rest x hrest
      have hbo2 : bAgg numel rest x = 0 := bAgg_off numel rest x hrest
      rw [hoff.1, hoff.2, hbo1, hbo2]
      simp [TorchAggregate.setItem, he]
    · have hx2 : x ∈ batchKeys rest := by
        rw [batchKeys_cons, List.mem_cons] at hx
        rcases hx with hx | hx
        · exact absurd hx he
        · exact hx
      have h := ih (a.setItem kv.1 kv.2) x hnd.2 hx2
      rw [h.1, h.2]
      have hne : ¬(formatKey kv.1 = x) := fun h2 => he h2.symm
      simp [hne]

theorem ofBatch_keys (b : Batch) (hnd : (batchKeys b).Nodup) :
    (TorchAggregate.ofBatch b).keys = batchKeys b := by
  have := setItems_keys b TorchAggregate.empty hnd
    (fun k _ => List.not_mem_nil k)
  simpa [TorchAggregate.ofBatch, TorchAggregate.empty] using this

theorem ofBatch_agg (b : Batch) (hnd : (batchKeys b).Nodup) (x : String) :
    (TorchAggregate.ofBatch b).aggregate x = bAgg tensorSum b x ∧
    (TorchAggregate.ofBatch b).counts x = bAgg numel b x := by
  by_cases hx : x ∈ batchKeys b
  · exact setItems_agg_mem b TorchAggregate.empty x hnd hx
  · have h := setItems_off b TorchAggregate.empty x hx
    rw [TorchAggregate.ofBatch, h.1, h.2, bAgg_off tensorSum b x hx,
      bAgg_off numel b x hx]
    exact ⟨rfl, rfl⟩

/-! ## Lemmas about TorchAggregate: merge -/

theorem iadd_mem_keys (a b : TorchAggregate) (x : String) :
    x ∈ (a.iadd b).keys ↔ x ∈ a.keys ∨ x ∈ b.keys := by
  simp only [TorchAggregate.iadd, List.mem_append, List.mem_filter,
    Bool.not_eq_eq_eq_not, Bool.not_true, decide_eq_false_iff_not]
  constructor
  · rintro (h | ⟨h, _⟩)
    · exact Or.inl h
    · exact Or.inr h
  · rintro (h | h)
    · exact Or.inl h
    · by_cases ha : x ∈ a.keys
      · exact Or.inl ha
      · exact Or.inr ⟨h, ha⟩

theorem iadd_agg {b : TorchAggregate} (a : TorchAggregate) (hb : AggInv b)
    (x : String) :
    (a.iadd b).aggregate x = a.aggregate x + b.aggregate x ∧
    (a.iadd b).counts x = a.counts x + b.counts x := by
  simp only [TorchAggregate.iadd]
  by_cases h : x ∈ b.keys
  · simp [h]
  · have h2 := hb.2 x h
    simp [h, h2.1, h2.2]

theorem iadd_inv {a b : TorchAggregate} (ha : AggInv a) (hb : AggInv b) :
    AggInv (a.iadd b) := by
  constructor
  · simp only [TorchAggregate.iadd]
    rw [List.nodup_append]
    refine ⟨ha.1, List.Nodup.filter _ hb.1, ?_⟩
    intro x hx hx2
    have := (List.mem_filter.mp hx2).2
    simp only [Bool.not_eq_eq_eq_not, Bool.not_true,
      decide_eq_false_iff_not] at this
    exact this hx
  · intro x hx
    rw [iadd_mem_keys] at hx
    simp only [not_or] at hx
    have h1 := ha.2 x hx.1
    have h2 := hb.2 x hx.2
    rw [(iadd_agg a hb x).1, (iadd_agg a hb x).2, h1.1, h1.2, h2.1, h2.2]
    simp

theorem aggEquiv_refl (a : TorchAggregate) : AggEquiv a a :=
  ⟨fun _ => Iff.rfl, fun _ => rfl, fun _ => rfl⟩

theorem aggEquiv_trans {a b c : TorchAggregate} (h1 : AggEquiv a b)
    (h2 : AggEquiv b c) : AggEquiv a c :=
  ⟨fun k => (h1.1 k).trans (h2.1 k),
   fun k => (h1.2.1 k).trans (h2.2.1 k),
   fun k => (h1.2.2 k).trans (h2.2.2 k)⟩

theorem aggEquiv_eqb {a b : TorchAggregate} (h : AggEquiv a b) :
    a.eqb b = true := by
  simp only [TorchAggregate.eqb, Bool.and_eq_true, List.all_eq_true,
    decide_eq_true_eq]
  exact ⟨⟨fun k hk => (h.1 k).mp hk, fun k hk => (h.1 k).mpr hk⟩,
    fun k _ => by simp [h.2.1 k, h.2.2 k]⟩

theorem iadd_congr {a a2 b b2 : TorchAggregate} (ha : AggEquiv a a2)
    (hb : AggEquiv b b2) : AggEquiv (a.iadd b) (a2.iadd b2) := by
  refine ⟨?_, ?_, ?_⟩
  · intro k
    rw [iadd_mem_keys, iadd_mem_keys]
    exact or_congr (ha.1 k) (hb.1 k)
  · intro k
    simp only [TorchAggregate.iadd]
    by_cases h : k ∈ b.keys
    · have h2 : k ∈ b2.keys := (hb.1 k).mp h
      simp [h, h2, ha.2.1 k, hb.2.1 k]
    · have h2 : k ∉ b2.keys := fun hk => h ((hb.1 k).mpr hk)
      simp [h, h2, ha.2.1 k]
  · intro k
    simp only [TorchAggregate.iadd]
    by_cases h : k ∈ b.keys
    · have h2 : k ∈ b2.keys := (hb.1 k).mp h
      simp [h, h2, ha.2.2 k, hb.2.2 k]
    · have h2 : k ∉ b2.keys := fun hk => h ((hb.1 k).mpr hk)
      simp [h, h2, ha.2.2 k]

theorem iadd_comm_equiv {a b : TorchAggregate} (ha : AggInv a)
    (hb : AggInv b) : AggEquiv (a.iadd b) (b.iadd a) := by
  refine ⟨?_, ?_, ?_⟩
  · intro k
    rw [iadd_mem_keys, iadd_mem_keys]
    exact Or.comm
  · intro k
    rw [(iadd_agg a hb k).1, (iadd_agg b ha k).1]
    ring
  · intro k
    rw [(iadd_agg a hb k).2, (iadd_agg b ha k).2]
    omega

theorem iadd_assoc_equiv {a b c : TorchAggregate} (hb : AggInv b)
    (hc : AggInv c) : AggEquiv ((a.iadd b).iadd c) (a.iadd (b.iadd c)) := by
  have hbc : AggInv (b.iadd c) := iadd_inv hb hc
  refine ⟨?_, ?_, ?_⟩
  · intro k
    rw [iadd_mem_keys, iadd_mem_keys, iadd_mem_keys, iadd_mem_keys]
    exact or_assoc
  · intro k
    rw [(iadd_agg (a.iadd b) hc k).1, (iadd_agg a hb k).1,
      (iadd_agg a hbc k).1, (iadd_agg b hc k).1]
    ring
  · intro k
    rw [(iadd_agg (a.iadd b) hc k).2, (iadd_agg a hb k).2,
      (iadd_agg a hbc k).2, (iadd_agg b hc k).2]
    omega

theorem foldl_iadd_congr (l : List TorchAggregate) :
    ∀ {a a2 : TorchAggregate}, AggEquiv a a2 →
      AggEquiv (l.foldl TorchAggregate.iadd a) (l.foldl TorchAggregate.iadd a2) := by
  induction l with
  | nil => exact fun h => h
  | cons x l ih =>
    intro a a2 h
    exact ih (iadd_congr h (aggEquiv_refl x))

theorem foldl_iadd_perm {l l2 : List TorchAggregate} (hp : l.Perm l2)
    (hinv : ∀ x ∈ l, AggInv x) :
    ∀ a : TorchAggregate,
      AggEquiv (l.foldl TorchAggregate.iadd a) (l2.foldl TorchAggregate.iadd a) := by
  induction hp with
  | nil => exact fun a => aggEquiv_refl _
  | cons x hp ih =>
    intro a
    exact ih (fun y hy => hinv y (List.mem_cons_of_mem x hy)) (a.iadd x)
  | swap x y t =>
    intro a
    have hx : AggInv x := hinv x (by simp)
    have hy : AggInv y := hinv y (by simp)
    simp only [List.foldl_cons]
    refine foldl_iadd_congr t ?_
    refine ⟨?_, ?_, ?_⟩
    · intro k
      rw [iadd_mem_keys, iadd_mem_keys, iadd_mem_keys, iadd_mem_keys]
      tauto
    · intro k
      rw [(iadd_agg (a.iadd y) hx k).1, (iadd_agg a hy k).1,
        (iadd_agg (a.iadd x) hy k).1, (iadd_agg a hx k).1]
      ring
    · intro k
      rw [(iadd_agg (a.iadd y) hx k).2, (iadd_agg a hy k).2,
        (iadd_agg (a.iadd x) hy k).2, (iadd_agg a hx k).2]
      omega
  | trans hp1 hp2 ih1 ih2 =>
    intro a
    exact aggEquiv_trans (ih1 hinv a)
      (ih2 (fun y hy => hinv y (hp1.mem_iff.mpr hy)) a)

/-! ## Lemmas about the joined whole-sequence mapping -/

theorem jAgg_nil {M : Type} [AddCommMonoid M] (g : Tensor → M) (x : String) :
    jAgg g [] x = 0 := rfl

theorem jAgg_cons {M : Type} [AddCommMonoid M] (g : Tensor → M)
    (kv : String × Tensor) (j : Batch) (x : String) :
    jAgg g (kv :: j) x = (if kv.1 = x then g kv.2 else 0) + jAgg g j x := by
  by_cases h : kv.1 = x
  · have hb : (kv.1 == x) = true := by simpa using h
    simp [jAgg, List.filter, hb, h]
  · have hb : (kv.1 == x) = false := by simpa using h
    simp [jAgg, List.filter, hb, h]

theorem bAgg_nil {M : Type} [AddCommMonoid M] (g : Tensor → M) (x : String) :
    bAgg g [] x = 0 := rfl

theorem jAgg_append_single {M : Type} [AddCommMonoid M] (g : Tensor → M)
    (j : Batch) (k : String) (t : Tensor) (x : String) :
    jAgg g (j ++ [(k, t)]) x = jAgg g j x + if x = k then g t else 0 := by
  by_cases h : k = x
  · have hb : (k == x) = true := by simpa using h
    simp [jAgg, List.filter_append, List.filter, hb, h.symm]
  · have hb : (k == x) = false := by simpa using h
    have h2 : ¬(x = k) := fun he => h he.symm
    simp [jAgg, List.filter_append, List.filter, hb, h2]

theorem mapReplace_id (k : String) (t : Tensor) :
    ∀ j : Batch, k ∉ j.map Prod.fst →
      (j.map fun kv => if kv.1 = k then (kv.1, kv.2 ++ t) else kv) = j := by
  intro j h
  induction j with
  | nil => rfl
  | cons kv rest ih =>
    simp only [List.map_cons, List.mem_cons, not_or] at h
    have h1 : ¬(kv.1 = k) := fun he => h.1 he.symm
    simp only [List.map_cons, h1, if_false]
    rw [ih h.2]

theorem jAgg_mapReplace {M : Type} [AddCommMonoid M] (g : Tensor → M)
    (hg : ∀ v t : Tensor, g (v ++ t) = g v + g t) (k : String) (t : Tensor)
    (x : String) :
    ∀ j : Batch, (j.map Prod.fst).Nodup →
      jAgg g (j.map fun kv => if kv.1 = k then (kv.1, kv.2 ++ t) else kv) x =
        jAgg g j x + if x = k ∧ k ∈ j.map Prod.fst then g t else 0 := by
  intro j
  induction j with
  | nil => intro _; simp [jAgg_nil]
  | cons kv rest ih =>
    intro hnd
    simp only [List.map_cons, List.nodup_cons] at hnd
    by_cases h1 : kv.1 = k
    · have hrest : (rest.map fun kv => if kv.1 = k then (kv.1, kv.2 ++ t)
          else kv) = rest := mapReplace_id k t rest (h1 ▸ hnd.1)
      simp only [List.map_cons, h1, if_true, hrest]
      rw [jAgg_cons, jAgg_cons]
      by_cases h2 : kv.1 = x
      · have hx : x = k ∧ k ∈ kv.1 :: rest.map Prod.fst :=
          ⟨h2.symm.trans h1, by simp [h1]⟩
        simp only [h2, if_true, hx, and_true, hg]
        rw [add_assoc, add_comm (g t), ← add_assoc]
        simp [hx.1]
      · have hx : ¬(x = k ∧ k ∈ kv.1 :: rest.map Prod.fst) := by
          rintro ⟨he, _⟩
          exact h2 (h1.trans he.symm)
        have hkx : ¬(k = x) := fun he => h2 (h1.trans he)
        have hxk : ¬(x = k) := fun he => hkx he.symm
        simp [h2, hx, hkx, hxk]
    · simp only [List.map_cons, h1, if_false]
      rw [jAgg_cons, jAgg_cons, ih hnd.2]
      by_cases h2 : x = k ∧ k ∈ rest.map Prod.fst
      · have hx : x = k ∧ k ∈ kv.1 :: rest.map Prod.fst :=
          ⟨h2.1, by simp [h2.2]⟩
        simp only [h2, if_true, hx, add_assoc]
      · have hx : ¬(x = k ∧ k ∈ kv.1 :: rest.map Prod.fst) := by
          rintro ⟨he, hm⟩
          rcases List.mem_cons.mp hm with hm | hm
          · exact h1 hm.symm
          · exact h2 ⟨he, hm⟩
        simp only [h2, if_false, hx, add_zero]

theorem jAgg_insertVal {M : Type} [AddCommMonoid M] (g : Tensor → M)
    (hg : ∀ v t : Tensor, g (v ++ t) = g v + g t) (j : Batch) (k : String)
    (t : Tensor) (x : String) (hnd : (j.map Prod.fst).Nodup) :
    jAgg g (insertVal j k t) x = jAgg g j x + if x = k then g t else 0 := by
  by_cases h : k ∈ j.map Prod.fst
  · simp only [insertVal, h, if_true]
    rw [jAgg_mapReplace g hg k t x j hnd]
    by_cases h2 : x = k
    · simp [h2, h]
    · simp [h2]
  · simp only [insertVal, h, if_false]
    exact jAgg_append_single g j k t x

theorem insertVal_keys (j : Batch) (k : String) (t : Tensor) :
    (insertVal j k t).map Prod.fst =
      if k ∈ j.map Prod.fst then j.map Prod.fst
      else j.map Prod.fst ++ [k] := by
  by_cases h : k ∈ j.map Prod.fst
  · simp only [insertVal, h, if_true, List.map_map]
    refine List.map_congr_left ?_
    intro kv _
    by_cases h2 : kv.1 = k <;> simp [h2]
  · simp [insertVal, h]

theorem insertVal_nodup (j : Batch) (k : String) (t : Tensor)
    (hnd : (j.map Prod.fst).Nodup) :
    ((insertVal j k t).map Prod.fst).Nodup := by
  rw [insertVal_keys]
  by_cases h : k ∈ j.map Prod.fst
  · simpa [h] using hnd
  · simp only [h, if_false]
    rw [List.nodup_append]
    refine ⟨hnd, List.nodup_singleton _, ?_⟩
    intro x hx
    simp only [List.mem_singleton]
    intro he
    exact h (he ▸ hx)

theorem insertVal_formatted (j : Batch) (k : String) (t : Tensor)
    (hj : ∀ kv ∈ j, formatKey kv.1 = kv.1) (hk : formatKey k = k) :
    ∀ kv ∈ insertVal j k t, formatKey kv.1 = kv.1 := by
  intro kv hkv
  by_cases h : k ∈ j.map Prod.fst
  · simp only [insertVal, h, if_true] at hkv
    rcases List.mem_map.mp hkv with ⟨kv0, hkv0, heq⟩
    by_cases h2 : kv0.1 = k
    · rw [← heq]
      simpa [h2] using hj kv0 hkv0
    · rw [← heq]
      simpa [h2] using hj kv0 hkv0
  · simp only [insertVal, h, if_false, List.mem_append,
      List.mem_singleton] at hkv
    rcases hkv with hkv | hkv
    · exact hj kv hkv
    · rw [hkv]
      exact hk

theorem joinInto_jAgg {M : Type} [AddCommMonoid M] (g : Tensor → M)
    (hg : ∀ v t : Tensor, g (v ++ t) = g v + g t) (b : Batch) :
    ∀ (j : Batch) (x : String), (j.map Prod.fst).Nodup →
      jAgg g (joinInto j b) x = jAgg g j x + bAgg g b x := by
  induction b with
  | nil => intro j x _; simp [joinInto, bAgg_nil]
  | cons kv rest ih =>
    intro j x hnd
    have hstep : joinInto j (kv :: rest) =
        joinInto (insertVal j (formatKey kv.1) kv.2) rest := rfl
    rw [hstep, ih (insertVal j (formatKey kv.1) kv.2) x
      (insertVal_nodup j (formatKey kv.1) kv.2 hnd),
      jAgg_insertVal g hg j (formatKey kv.1) kv.2 x hnd, bAgg_cons]
    rw [add_assoc]
    congr 1
    congr 1
    by_cases h : x = formatKey kv.1
    · simp [h]
    · have h2 : ¬(formatKey kv.1 = x) := fun he => h he.symm
      simp [h, h2]

theorem joinInto_keys (b : Batch) :
    ∀ j : Batch, (j.map Prod.fst).Nodup → (batchKeys b).Nodup →
      (joinInto j b).map Prod.fst =
        j.map Prod.fst ++
          (batchKeys b).filter fun k => !(decide (k ∈ j.map Prod.fst)) := by
  induction b with
  | nil => intro j _ _; simp [joinInto, batchKeys_nil]
  | cons kv rest ih =>
    intro j hnd hbnd
    rw [batchKeys_cons, List.nodup_cons] at hbnd
    have hstep : joinInto j (kv :: rest) =
        joinInto (insertVal j (formatKey kv.1) kv.2) rest := rfl
    by_cases h : formatKey kv.1 ∈ j.map Prod.fst
    · have hkeys1 : (insertVal j (formatKey kv.1) kv.2).map Prod.fst =
          j.map Prod.fst := by
        rw [insertVal_keys]
        simp [h]
      rw [hstep, ih (insertVal j (formatKey kv.1) kv.2)
        (insertVal_nodup j (formatKey kv.1) kv.2 hnd) hbnd.2, hkeys1,
        batchKeys_cons, List.filter_cons]
      have hp : (!(decide (formatKey kv.1 ∈ j.map Prod.fst))) = false := by
        simp [h]
      rw [hp]
      simp
    · have hkeys1 : (insertVal j (formatKey kv.1) kv.2).map Prod.fst =
          j.map Prod.fst ++ [formatKey kv.1] := by
        rw [insertVal_keys]
        simp [h]
      rw [hstep, ih (insertVal j (formatKey kv.1) kv.2)
        (insertVal_nodup j (formatKey kv.1) kv.2 hnd) hbnd.2, hkeys1,
        batchKeys_cons, List.filter_cons]
      have hfilter : ∀ k ∈ batchKeys rest,
          (!(decide (k ∈ j.map Prod.fst ++ [formatKey kv.1]))) =
            (!(decide (k ∈ j.map Prod.fst))) := by
        intro k hk
        have hne : ¬(k = formatKey kv.1) := fun he => hbnd.1 (he ▸ hk)
        simp [List.mem_append, hne]
      rw [List.filter_congr hfilter]
      have hp : (!(decide (formatKey kv.1 ∈ j.map Prod.fst))) = true := by
        simp [h]
      rw [hp]
      simp

theorem tensorSum_append (v t : Tensor) :
    tensorSum (v ++ t) = tensorSum v + tensorSum t := by
  simp [tensorSum]

theorem numel_append (v t : Tensor) : numel (v ++ t) = numel v + numel t := by
  simp [numel]

theorem joinInto_formatted (b : Batch) :
    ∀ j : Batch, (∀ kv ∈ j, formatKey kv.1 = kv.1) →
      ∀ kv ∈ joinInto j b, formatKey kv.1 = kv.1 := by
  induction b with
  | nil => exact fun j hj => hj
  | cons kv0 rest ih =>
    intro j hj
    exact ih (insertVal j (formatKey kv0.1) kv0.2)
      (insertVal_formatted j (formatKey kv0.1) kv0.2 hj (formatKey_idem kv0.1))

theorem pairInv_step {A : TorchAggregate} {j b : Batch} (h : PairInv A j)
    (hnd : (batchKeys b).Nodup) :
    PairInv (A.iadd (TorchAggregate.ofBatch b)) (joinInto j b) := by
  obtain ⟨hkeys, hsum, hcount, hjnd, hjfmt⟩ := h
  have hoinv := ofBatch_inv b
  refine ⟨?_, ?_, ?_, ?_, ?_⟩
  · show A.keys ++ (TorchAggregate.ofBatch b).keys.filter _ = _
    rw [joinInto_keys b j hjnd hnd, hkeys, ofBatch_keys b hnd]
  · intro x
    rw [(iadd_agg A hoinv x).1, hsum x, (ofBatch_agg b hnd x).1,
      joinInto_jAgg tensorSum tensorSum_append b j x hjnd]
  · intro x
    rw [(iadd_agg A hoinv x).2, hcount x, (ofBatch_agg b hnd x).2,
      joinInto_jAgg numel numel_append b j x hjnd]
  · rw [joinInto_keys b j hjnd hnd, List.nodup_append]
    refine ⟨hjnd, List.Nodup.filter _ hnd, ?_⟩
    intro x hx hx2
    have := (List.mem_filter.mp hx2).2
    simp only [Bool.not_eq_eq_eq_not, Bool.not_true,
      decide_eq_false_iff_not] at this
    exact this hx
  · exact joinInto_formatted b j hjfmt

theorem pairInv_empty : PairInv TorchAggregate.empty [] :=
  ⟨rfl, fun _ => rfl, fun _ => rfl, List.nodup_nil, by simp⟩

theorem pairInv_foldl (bs : List Batch) :
    ∀ (A : TorchAggregate) (j : Batch), PairInv A j →
      (∀ b ∈ bs, (batchKeys b).Nodup) →
      PairInv
        (bs.foldl (fun acc b => acc.iadd (TorchAggregate.ofBatch b)) A)
        (bs.foldl joinInto j) := by
  induction bs with
  | nil => exact fun A j h _ => h
  | cons b bs ih =>
    intro A j h hnd
    exact ih (A.iadd (TorchAggregate.ofBatch b)) (joinInto j b)
      (pairInv_step h (hnd b (by simp)))
      (fun b2 hb2 => hnd b2 (by simp [hb2]))

theorem pairInv_mergeAll (bs : List Batch)
    (h : ∀ b ∈ bs, (batchKeys b).Nodup) :
    PairInv (mergeAll bs) (joinBatches bs) :=
  pairInv_foldl bs TorchAggregate.empty [] pairInv_empty h

theorem bAgg_eq_jAgg {M : Type} [AddCommMonoid M] (g : Tensor → M)
    (j : Batch) (hf : ∀ kv ∈ j, formatKey kv.1 = kv.1) (x : String) :
    bAgg g j x = jAgg g j x := by
  have hpred : ∀ kv ∈ j, (formatKey kv.1 == x) = (kv.1 == x) :=
    fun kv hkv => by rw [hf kv hkv]
  unfold bAgg jAgg
  rw [List.filter_congr hpred]

theorem batchKeys_eq_of_formatted (j : Batch)
    (hf : ∀ kv ∈ j, formatKey kv.1 = kv.1) :
    batchKeys j = j.map Prod.fst :=
  List.map_congr_left fun kv hkv => hf kv hkv

/-! ## Lemmas about reduce -/

theorem reduceGo_congr {agg1 agg2 : String → ℚ} {c1 c2 : String → ℕ}
    (ha : ∀ x, agg1 x = agg2 x) (hc : ∀ x, c1 x = c2 x) :
    ∀ ks : List String, reduceGo agg1 c1 ks = reduceGo agg2 c2 ks := by
  intro ks
  induction ks with
  | nil => rfl
  | cons k ks ih => simp only [reduceGo, ha k, hc k, ih]

theorem reduceGo_error_of_mem (agg : String → ℚ) (counts : String → ℕ) :
    ∀ (ks : List String) (k : String), k ∈ ks → counts k = 0 →
      reduceGo agg counts ks = .error () := by
  intro ks
  induction ks with
  | nil => intro k hk; simp at hk
  | cons k0 ks ih =>
    intro k hk hc
    rcases List.mem_cons.mp hk with he | hm
    · subst he
      simp [reduceGo, hc]
    · by_cases h0 : counts k0 = 0
      · simp [reduceGo, h0]
      · simp [reduceGo, h0, ih k hm hc]

theorem reduceGo_ok (agg : String → ℚ) (counts : String → ℕ) :
    ∀ ks : List String, (∀ k ∈ ks, counts k ≠ 0) →
      reduceGo agg counts ks =
        .ok (ks.map fun k => (k, agg k / (counts k : ℚ))) := by
  intro ks
  induction ks with
  | nil => intro _; rfl
  | cons k ks ih =>
    intro h
    have hk : counts k ≠ 0 := h k (by simp)
    simp [reduceGo, hk, ih fun k2 hk2 => h k2 (by simp [hk2])]

theorem mergeAll_split (bs : List Batch)
    (h : ∀ b ∈ bs, (batchKeys b).Nodup) :
    (mergeAll bs).keys = (TorchAggregate.ofBatch (joinBatches bs)).keys ∧
    (mergeAll bs).reduce = (TorchAggregate.ofBatch (joinBatches bs)).reduce := by
  obtain ⟨hkeys, hsum, hcount, hjnd, hjfmt⟩ := pairInv_mergeAll bs h
  have hbk : batchKeys (joinBatches bs) = (joinBatches bs).map Prod.fst :=
    batchKeys_eq_of_formatted _ hjfmt
  have hndb : (batchKeys (joinBatches bs)).Nodup := hbk ▸ hjnd
  have hwkeys : (TorchAggregate.ofBatch (joinBatches bs)).keys =
      (joinBatches bs).map Prod.fst := by
    rw [ofBatch_keys _ hndb, hbk]
  have hkeq : (mergeAll bs).keys =
      (TorchAggregate.ofBatch (joinBatches bs)).keys := by
    rw [hkeys, hwkeys]
  refine ⟨hkeq, ?_⟩
  have hagg : ∀ x, (mergeAll bs).aggregate x =
      (TorchAggregate.ofBatch (joinBatches bs)).aggregate x := by
    intro x
    rw [(ofBatch_agg _ hndb x).1, bAgg_eq_jAgg tensorSum _ hjfmt x, hsum x]
  have hcnt : ∀ x, (mergeAll bs).counts x =
      (TorchAggregate.ofBatch (joinBatches bs)).counts x := by
    intro x
    rw [(ofBatch_agg _ hndb x).2, bAgg_eq_jAgg numel _ hjfmt x, hcount x]
  unfold TorchAggregate.reduce
  rw [hkeq]
  exact reduceGo_congr hagg hcnt _

/-! ## Claim theorems: TorchAggregate -/

/-- C2: merging aggregates with `+` is commutative and associative up to
Python dict equality; folding any permutation of a list of aggregates gives
a dict-equal result; and for any sequence of metric values split into
sub-batches (one tensor per formatted metric name per sub-batch), updating
one aggregator per sub-batch and merging with `+` yields the same key list
and the same `reduce()` result — exact per-key mean, keys unioned — as a
single aggregator updated on the whole joined sequence.  Arithmetic is
modelled exactly (rationals). -/
theorem aggregate_merge_split_reduce :
    (∀ a b : TorchAggregate, AggInv a → AggInv b →
      (a.iadd b).eqb (b.iadd a) = true) ∧
    (∀ a b c : TorchAggregate, AggInv b → AggInv c →
      ((a.iadd b).iadd c).eqb (a.iadd (b.iadd c)) = true) ∧
    (∀ l l2 : List TorchAggregate, l.Perm l2 → (∀ x ∈ l, AggInv x) →
      (mergeList l).eqb (mergeList l2) = true) ∧
    (∀ bs : List Batch, (∀ b ∈ bs, (batchKeys b).Nodup) →
      (mergeAll bs).keys = (TorchAggregate.ofBatch (joinBatches bs)).keys ∧
      (mergeAll bs).reduce =
        (TorchAggregate.ofBatch (joinBatches bs)).reduce) :=
  ⟨fun _ _ ha hb => aggEquiv_eqb (iadd_comm_equiv ha hb),
   fun _ _ _ hb hc => aggEquiv_eqb (iadd_assoc_equiv hb hc),
   fun _ _ hp hinv =>
     aggEquiv_eqb (foldl_iadd_perm hp hinv TorchAggregate.empty),
   fun bs h => mergeAll_split bs h⟩

/-- C2 witness: `aggregate_merge_split_reduce` on concrete aggregates and
sub-batches. -/
theorem aggregate_merge_split_reduce_witness :
    ((TorchAggregate.ofBatch [("x", [1, 2])]).iadd
        (TorchAggregate.ofBatch [("y", [3])])).eqb
      ((TorchAggregate.ofBatch [("y", [3])]).iadd
        (TorchAggregate.ofBatch [("x", [1, 2])])) = true ∧
    (((TorchAggregate.ofBatch [("x", [1])]).iadd
        (TorchAggregate.ofBatch [("y", [2])])).iadd
        (TorchAggregate.ofBatch [("x", [4])])).eqb
      ((TorchAggregate.ofBatch [("x", [1])]).iadd
        ((TorchAggregate.ofBatch [("y", [2])]).iadd
          (TorchAggregate.ofBatch [("x", [4])]))) = true ∧
    (mergeList [TorchAggregate.ofBatch [("x", [1])],
        TorchAggregate.ofBatch [("y", [2])]]).eqb
      (mergeList [TorchAggregate.ofBatch [("y", [2])],
        TorchAggregate.ofBatch [("x", [1])]]) = true ∧
    ((mergeAll [[("loss", [1, 2])], [("loss", [3]), ("acc", [1])]]).keys =
      (TorchAggregate.ofBatch
        (joinBatches [[("loss", [1, 2])], [("loss", [3]), ("acc", [1])]])).keys ∧
     (mergeAll [[("loss", [1, 2])], [("loss", [3]), ("acc", [1])]]).reduce =
      (TorchAggregate.ofBatch
        (joinBatches [[("loss", [1, 2])],
          [("loss", [3]), ("acc", [1])]])).reduce) := by
  refine ⟨?_, ?_, ?_, ?_⟩
  · exact aggregate_merge_split_reduce.1 _ _ (ofBatch_inv _) (ofBatch_inv _)
  · exact aggregate_merge_split_reduce.2.1 _ _ _ (ofBatch_inv _)
      (ofBatch_inv _)
  · refine aggregate_merge_split_reduce.2.2.1 _ _
      (List.Perm.swap (TorchAggregate.ofBatch [("y", [2])])
        (TorchAggregate.ofBatch [("x", [1])]) []) ?_
    intro x hx
    rcases List.mem_cons.mp hx with he | hx
    · rw [he]
      exact ofBatch_inv _
    · rcases List.mem_cons.mp hx with he | hx
      · rw [he]
        exact ofBatch_inv _
      · simp at hx
  · exact aggregate_merge_split_reduce.2.2.2 _ (by decide)

/-- C10: recording an empty tensor for a metric leaves that key with count
`0`, and `reduce()` then raises `ZeroDivisionError` (there is no zero
guard); on an aggregate whose counts are all positive, `reduce()` is total
and returns the per-key quotient sum/count. -/
theorem aggregate_reduce_zero_div :
    (∀ (b : Batch) (kv : String × Tensor), (batchKeys b).Nodup → kv ∈ b →
      kv.2 = [] →
      (TorchAggregate.ofBatch b).counts (formatKey kv.1) = 0 ∧
      (TorchAggregate.ofBatch b).reduce = .error ()) ∧
    (∀ a : TorchAggregate, (∀ k ∈ a.keys, a.counts k ≠ 0) →
      a.reduce =
        .ok (a.keys.map fun k => (k, a.aggregate k / (a.counts k : ℚ)))) := by
  constructor
  · intro b kv hnd hkv hempty
    have hc : (TorchAggregate.ofBatch b).counts (formatKey kv.1) = 0 := by
      rw [(ofBatch_agg b hnd (formatKey kv.1)).2]
      unfold bAgg
      apply List.sum_eq_zero
      intro n hn
      rcases List.mem_map.mp hn with ⟨kv2, hkv2, hkeq⟩
      have hkv2b : kv2 ∈ b := List.mem_of_mem_filter hkv2
      have hfk : formatKey kv2.1 = formatKey kv.1 := by
        have := (List.mem_filter.mp hkv2).2
        simpa using this
      have hnd2 : (b.map fun kv : String × Tensor => formatKey kv.1).Nodup :=
        hnd
      have hkv2eq : kv2 = kv := List.inj_on_of_nodup_map hnd2 hkv2b hkv hfk
      rw [← hkeq, hkv2eq, hempty]
      rfl
    refine ⟨hc, ?_⟩
    unfold TorchAggregate.reduce
    refine reduceGo_error_of_mem _ _ _ (formatKey kv.1) ?_ hc
    rw [ofBatch_keys b hnd]
    exact List.mem_map_of_mem _ hkv
  · intro a h
    unfold TorchAggregate.reduce
    exact reduceGo_ok a.aggregate a.counts a.keys h

/-- C10 witness: `aggregate_reduce_zero_div` on a batch with an empty
tensor, and on an aggregate with positive counts. -/
theorem aggregate_reduce_zero_div_witness :
    (TorchAggregate.ofBatch [("a", []), ("b", [1])]).counts
      (formatKey "a") = 0 ∧
    (TorchAggregate.ofBatch [("a", []), ("b", [1])]).reduce = .error () ∧
    (TorchAggregate.ofBatch [("b", [1, 3])]).reduce =
      .ok ((TorchAggregate.ofBatch [("b", [1, 3])]).keys.map fun k =>
        (k, (TorchAggregate.ofBatch [("b", [1, 3])]).aggregate k /
          ((TorchAggregate.ofBatch [("b", [1, 3])]).counts k : ℚ))) := by
  refine ⟨?_, ?_, ?_⟩
  · exact (aggregate_reduce_zero_div.1 [("a", []), ("b", [1])] ("a", [])
      (by decide) (by decide) rfl).1
  · exact (aggregate_reduce_zero_div.1 [("a", []), ("b", [1])] ("a", [])
      (by decide) (by decide) rfl).2
  · exact aggregate_reduce_zero_div.2 (TorchAggregate.ofBatch [("b", [1, 3])])
      (by decide)

end DryTorch
